import Mathlib

/-!
# ThreadPool (include/ThreadPool.hpp): an interleaving model and its properties

The pool of `ThreadPool.hpp` is embedded as a transition system.  A state `ThreadPool`
holds the members of the class (`running_`, `workers_`, `mutex_`, `tasks_`), the
`std::packaged_task` objects created by `add_task` (the cells that the queued
closures and the returned futures share), the progress of the destructor, and
three history lists that record enqueue, dequeue and invocation order.

Every transition is one atomic action of one thread and is named after the
source lines it executes:

* worker lambda (lines 60-73): `lock`, `cond`, `wait`, `spurious`, `check`, `finish`;
* `add_task` (lines 90-103): `add_task_begin`, `add_task_lock`, `add_task_emplace`,
  `add_task_notify`;
* `~ThreadPool` (lines 80-88 and the destruction of the members that follows the
  body): `dtorStore`, `dtorNotifyAll`, `dtorJoin`, `dtorMembers`.

`condition_` has no field of its own: the threads blocked on it are the workers
whose program counter is `WorkerPc.waiting`.
-/

namespace thread_pool

/-- What a future can rethrow: the exception of the callable, or the
`future_errc::broken_promise` error stored when a `std::packaged_task` is destroyed
before it was invoked. -/
inductive Failure (E : Type) where
  | raised (e : E)
  | brokenPromise
  deriving DecidableEq, Repr

/-- Shared state of a `std::packaged_task` / `std::future` pair (the Result Handle). -/
inductive Handle (V E : Type) where
  | pending
  | ready (v : V)
  | failed (e : Failure E)
  deriving DecidableEq, Repr

/-- Progress of one call of `add_task`.
`created`: lines 94-96 done; `locked`: line 98 done, `its_lock` held;
`enqueued`: lines 99-100 done, lock released; `returned`: lines 101-102 done. -/
inductive AddPc where
  | created
  | locked
  | enqueued
  | returned
  deriving DecidableEq, Repr

/-- One `std::packaged_task<ret_type()>` made at line 94: the bound callable, the
shared state read by the future of line 96, and the progress of the call that made it. -/
structure Packaged (V E : Type) where
  fn : Unit → Except E V
  state : Handle V E
  call : AddPc

/-- Program counter of a worker thread (lambda of lines 59-74).
`lockWait`: before line 62; `loopCond`: line 63, mutex held; `waitCall`: line 64 before
the call of `wait`, mutex held; `waiting`: blocked inside `wait`, mutex released;
`woken`: unblocked inside `wait`, mutex not yet re-acquired; `exitCheck`: line 66, mutex
held; `running t`: line 72, executing the closure that owns packaged task `t`;
`terminated`: left the loop through `break`. -/
inductive WorkerPc where
  | lockWait
  | loopCond
  | waitCall
  | waiting
  | woken
  | exitCheck
  | running (t : Nat)
  | terminated
  deriving DecidableEq, Repr

/-- Threads of the program: worker `i`, the thread inside the `add_task` call that made
packaged task `t`, and the thread that destroys the pool. -/
inductive Thread where
  | worker (i : Nat)
  | caller (t : Nat)
  | owner
  deriving DecidableEq, Repr

/-- Progress of `~ThreadPool`.  `alive`: not entered; `notifyAll`: line 81 done;
`joining i`: lines 83-87, about to join `workers_[i]`; `destroyed`: body left and members
destroyed. -/
inductive DtorPc where
  | alive
  | notifyAll
  | joining (i : Nat)
  | destroyed
  deriving DecidableEq, Repr

/-- Ways the program leaves defined behaviour: `tasks_.front()` on an empty queue (line 69),
and `(*task)()` on a packaged task that was already invoked (`future_error` escaping the
thread function, line 72). -/
inductive Fault where
  | frontOnEmpty
  | promiseAlreadySatisfied
  deriving DecidableEq, Repr

/-- State of a `ThreadPool` object and of the threads using it: the members `running_`,
`workers_` (one program counter per thread; `number_` is its length), `mutex_` (its owner) and
`tasks_` (each closure named by the packaged task it owns), the packaged tasks made so far,
the progress of the destructor, a fault if one occurred, and the history lists `enqLog`
(tasks in the order of line 99), `deqLog` (worker and task, in the order of lines 69-70) and
`runLog` (worker and task, in the order in which the calls of line 72 returned). -/
structure ThreadPool (V E : Type) where
  running_ : Bool
  workers_ : List WorkerPc
  mutex_ : Option Thread
  tasks_ : List Nat
  heap : List (Packaged V E)
  dtor : DtorPc
  fault : Option Fault
  enqLog : List Nat
  deqLog : List (Nat × Nat)
  runLog : List (Nat × Nat)

/-- Atomic actions. -/
inductive Event (V E : Type) where
  | lock (i : Nat)
  | cond (i : Nat)
  | wait (i : Nat)
  | spurious (i : Nat)
  | check (i : Nat)
  | finish (i : Nat)
  | add_task_begin (fn : Unit → Except E V)
  | add_task_lock (t : Nat)
  | add_task_emplace (t : Nat)
  | add_task_notify (t : Nat) (w : Option Nat)
  | dtorStore
  | dtorNotifyAll
  | dtorJoin
  | dtorMembers

variable {V E : Type}

/-- Constructor, lines 54-77: `running_(true)`, `number_(_number)` threads pushed into
`workers_`, each about to enter its loop; queue empty, mutex free. -/
def init (_number : Nat) : ThreadPool V E :=
  { running_ := true
    workers_ := List.replicate _number WorkerPc.lockWait
    mutex_ := none
    tasks_ := []
    heap := []
    dtor := DtorPc.alive
    fault := none
    enqLog := []
    deqLog := []
    runLog := [] }

/-- What `std::packaged_task::operator()` stores: the value returned by the callable, or
the exception it threw. -/
def outcome : Except E V → Handle V E
  | Except.ok v => Handle.ready v
  | Except.error e => Handle.failed (Failure.raised e)

/-- Line 95, `std::bind(f, args...)`: the argument is copied into the task. -/
def bind {A : Type} (f : A → V) (a : A) : Unit → Except E V :=
  fun _ => Except.ok (f a)

/-- Line 62 (`std::unique_lock its_lock(mutex_)`), and the re-acquisition of the mutex with
which `condition_.wait` returns: both continue at the loop condition of line 63. -/
def workerLock (s : ThreadPool V E) (i : Nat) : Option (ThreadPool V E) :=
  match s.workers_[i]?, s.mutex_ with
  | some WorkerPc.lockWait, none =>
    some { s with workers_ := s.workers_.set i WorkerPc.loopCond, mutex_ := some (Thread.worker i) }
  | some WorkerPc.woken, none =>
    some { s with workers_ := s.workers_.set i WorkerPc.loopCond, mutex_ := some (Thread.worker i) }
  | _, _ => none

/-- Line 63: `while (running_ && tasks_.empty())`. -/
def workerCond (s : ThreadPool V E) (i : Nat) : Option (ThreadPool V E) :=
  match s.workers_[i]? with
  | some WorkerPc.loopCond =>
    if s.running_ && s.tasks_.isEmpty then
      some { s with workers_ := s.workers_.set i WorkerPc.waitCall }
    else
      some { s with workers_ := s.workers_.set i WorkerPc.exitCheck }
  | _ => none

/-- Line 64: `condition_.wait(its_lock)` releases the mutex and blocks. -/
def workerWait (s : ThreadPool V E) (i : Nat) : Option (ThreadPool V E) :=
  match s.workers_[i]? with
  | some WorkerPc.waitCall =>
    some { s with workers_ := s.workers_.set i WorkerPc.waiting, mutex_ := none }
  | _ => none

/-- A spurious wake-up of a thread blocked in `condition_.wait`. -/
def workerSpurious (s : ThreadPool V E) (i : Nat) : Option (ThreadPool V E) :=
  match s.workers_[i]? with
  | some WorkerPc.waiting => some { s with workers_ := s.workers_.set i WorkerPc.woken }
  | _ => none

/-- Lines 66-71: `if (!running_) break;` then `task = std::move(tasks_.front());
tasks_.pop(); its_lock.unlock();`.  Leaving the loop destroys `its_lock`, which unlocks. -/
def workerCheck (s : ThreadPool V E) (i : Nat) : Option (ThreadPool V E) :=
  match s.workers_[i]? with
  | some WorkerPc.exitCheck =>
    if !s.running_ then
      some { s with workers_ := s.workers_.set i WorkerPc.terminated, mutex_ := none }
    else
      match s.tasks_ with
      | [] => some { s with fault := some Fault.frontOnEmpty }
      | t :: q =>
        some { s with
          tasks_ := q
          workers_ := s.workers_.set i (WorkerPc.running t)
          mutex_ := none
          deqLog := s.deqLog ++ [(i, t)] }
  | _ => none

/-- Line 72: `task()` returns.  The closure of line 99 invokes the packaged task, which
stores the outcome of the bound callable in the shared state; invoking a packaged task
whose state is already set throws out of the thread function. -/
def workerFinish (s : ThreadPool V E) (i : Nat) : Option (ThreadPool V E) :=
  match s.workers_[i]? with
  | some (WorkerPc.running t) =>
    match s.heap[t]? with
    | some p =>
      match p.state with
      | Handle.pending =>
        some { s with
          heap := s.heap.set t { p with state := outcome (p.fn ()) }
          workers_ := s.workers_.set i WorkerPc.lockWait
          runLog := s.runLog ++ [(i, t)] }
      | _ => some { s with fault := some Fault.promiseAlreadySatisfied }
    | none => none
  | _ => none

/-- Lines 93-96: the packaged task and its future are created.  The new task is the cell
`s.heap.length`. -/
def add_task_begin (s : ThreadPool V E) (fn : Unit → Except E V) : Option (ThreadPool V E) :=
  if s.dtor = DtorPc.destroyed then none
  else some { s with heap := s.heap ++ [{ fn := fn, state := Handle.pending, call := AddPc.created }] }

/-- Line 98: `std::lock_guard its_lock(mutex_)`. -/
def add_task_lock (s : ThreadPool V E) (t : Nat) : Option (ThreadPool V E) :=
  match s.heap[t]?, s.mutex_ with
  | some p, none =>
    if p.call = AddPc.created then
      some { s with
        heap := s.heap.set t { p with call := AddPc.locked }
        mutex_ := some (Thread.caller t) }
    else none
  | _, _ => none

/-- Lines 99-100: `tasks_.emplace([task] () {(*task)();})`, then the guard unlocks. -/
def add_task_emplace (s : ThreadPool V E) (t : Nat) : Option (ThreadPool V E) :=
  match s.heap[t]? with
  | some p =>
    if p.call = AddPc.locked then
      some { s with
        heap := s.heap.set t { p with call := AddPc.enqueued }
        tasks_ := s.tasks_ ++ [t]
        mutex_ := none
        enqLog := s.enqLog ++ [t] }
    else none
  | none => none

/-- Lines 101-102: `condition_.notify_one(); return ret;`.  `w = some i` unblocks the
waiting worker `i`; `w = none` is the call made while no worker is blocked. -/
def add_task_notify (s : ThreadPool V E) (t : Nat) (w : Option Nat) : Option (ThreadPool V E) :=
  match s.heap[t]? with
  | some p =>
    if p.call = AddPc.enqueued then
      match w with
      | some i =>
        if s.workers_[i]? = some WorkerPc.waiting then
          some { s with
            heap := s.heap.set t { p with call := AddPc.returned }
            workers_ := s.workers_.set i WorkerPc.woken }
        else none
      | none =>
        if s.workers_.all (fun pc => decide (pc ≠ WorkerPc.waiting)) then
          some { s with heap := s.heap.set t { p with call := AddPc.returned } }
        else none
    else none
  | none => none

/-- Line 81: `running_ = false;` (a store to the `std::atomic_bool`; no lock is taken). -/
def dtorStore (s : ThreadPool V E) : Option (ThreadPool V E) :=
  match s.dtor with
  | DtorPc.alive => some { s with running_ := false, dtor := DtorPc.notifyAll }
  | _ => none

/-- Effect of `notify_all` on one thread. -/
def wake : WorkerPc → WorkerPc
  | WorkerPc.waiting => WorkerPc.woken
  | pc => pc

/-- Line 82: `condition_.notify_all();`. -/
def dtorNotifyAll (s : ThreadPool V E) : Option (ThreadPool V E) :=
  match s.dtor with
  | DtorPc.notifyAll => some { s with workers_ := s.workers_.map wake, dtor := DtorPc.joining 0 }
  | _ => none

/-- Lines 83-87: `worker.join()` returns once the thread function of that worker has
returned (every worker is joinable: it was started and never joined or detached). -/
def dtorJoin (s : ThreadPool V E) : Option (ThreadPool V E) :=
  match s.dtor with
  | DtorPc.joining i =>
    if s.workers_[i]? = some WorkerPc.terminated then some { s with dtor := DtorPc.joining (i + 1) }
    else none
  | _ => none

/-- Destructor of a `std::packaged_task`: a shared state that is not ready is abandoned,
that is, made ready with `broken_promise`. -/
def abandon (p : Packaged V E) : Packaged V E :=
  match p.state with
  | Handle.pending => { p with state := Handle.failed Failure.brokenPromise }
  | _ => p

/-- Destruction of a queue of closures: each closure releases the only reference to its
packaged task. -/
def destroyQueue (heap : List (Packaged V E)) : List Nat → List (Packaged V E)
  | [] => heap
  | t :: q =>
    match heap[t]? with
    | some p => destroyQueue (heap.set t (abandon p)) q
    | none => destroyQueue heap q

/-- End of `~ThreadPool`: the loop of lines 83-87 is over and the members are destroyed,
`tasks_` among them.  The action is taken once no call of `add_task` is still inside the
pool. -/
def dtorMembers (s : ThreadPool V E) : Option (ThreadPool V E) :=
  match s.dtor with
  | DtorPc.joining i =>
    if i = s.workers_.length ∧ s.heap.all (fun p => decide (p.call = AddPc.returned)) then
      some { s with heap := destroyQueue s.heap s.tasks_, tasks_ := [], dtor := DtorPc.destroyed }
    else none
  | _ => none

/-- The action an event stands for. -/
def perform (s : ThreadPool V E) : Event V E → Option (ThreadPool V E)
  | Event.lock i => workerLock s i
  | Event.cond i => workerCond s i
  | Event.wait i => workerWait s i
  | Event.spurious i => workerSpurious s i
  | Event.check i => workerCheck s i
  | Event.finish i => workerFinish s i
  | Event.add_task_begin fn => add_task_begin s fn
  | Event.add_task_lock t => add_task_lock s t
  | Event.add_task_emplace t => add_task_emplace s t
  | Event.add_task_notify t w => add_task_notify s t w
  | Event.dtorStore => dtorStore s
  | Event.dtorNotifyAll => dtorNotifyAll s
  | Event.dtorJoin => dtorJoin s
  | Event.dtorMembers => dtorMembers s

/-- One atomic action; nothing runs after a fault. -/
def step (s : ThreadPool V E) (e : Event V E) : Option (ThreadPool V E) :=
  if s.fault.isSome then none else perform s e

/-- A schedule run from a state. -/
def exec (s : ThreadPool V E) : List (Event V E) → Option (ThreadPool V E)
  | [] => some s
  | e :: es => (step s e).bind (fun s' => exec s' es)

/-- States of a pool constructed with `n` workers. -/
def Reachable (n : Nat) (s : ThreadPool V E) : Prop :=
  ∃ evs : List (Event V E), exec (init n) evs = some s

/-- The handle of packaged task `t`, as seen through the future of line 96. -/
def handle (s : ThreadPool V E) (t : Nat) : Option (Handle V E) :=
  (s.heap[t]?).map (fun p => p.state)

/-- Result of `std::future::get` in state `s`: `none` while the caller blocks. -/
def futureGet (s : ThreadPool V E) (t : Nat) : Option (Except (Failure E) V) :=
  match handle s t with
  | some (Handle.ready v) => some (Except.ok v)
  | some (Handle.failed e) => some (Except.error e)
  | _ => none

/-- Tasks dequeued and not yet finished, with the worker that dequeued each. -/
def executing (s : ThreadPool V E) : List (Nat × Nat) :=
  s.deqLog.filter (fun p => decide (p ∉ s.runLog))

/-- The program counters at which a worker owns `mutex_`. -/
def holdsLock : WorkerPc → Bool
  | WorkerPc.loopCond => true
  | WorkerPc.waitCall => true
  | WorkerPc.exitCheck => true
  | _ => false

/-- The task a worker holds, if it is executing one. -/
def heldBy : WorkerPc → List Nat
  | WorkerPc.running t => [t]
  | _ => []

/-- Shared variables of the pool that are not synchronisation objects themselves. -/
inductive Var where
  | queue
  | flag
  deriving DecidableEq, Repr

/-- The shared variables an action reads or writes: `running_` and `tasks_` in the loop
condition of line 63; `running_` at line 66 and `tasks_` at lines 69-70; `tasks_` at line 99;
`running_` at line 81; `tasks_` when the members are destroyed. -/
def accesses : Event V E → List Var
  | Event.cond _ => [Var.flag, Var.queue]
  | Event.check _ => [Var.flag, Var.queue]
  | Event.add_task_emplace _ => [Var.queue]
  | Event.dtorStore => [Var.flag]
  | Event.dtorMembers => [Var.queue]
  | _ => []

/-- The thread that performs an action. -/
def actor (s : ThreadPool V E) : Event V E → Thread
  | Event.lock i => Thread.worker i
  | Event.cond i => Thread.worker i
  | Event.wait i => Thread.worker i
  | Event.spurious i => Thread.worker i
  | Event.check i => Thread.worker i
  | Event.finish i => Thread.worker i
  | Event.add_task_begin _ => Thread.caller s.heap.length
  | Event.add_task_lock t => Thread.caller t
  | Event.add_task_emplace t => Thread.caller t
  | Event.add_task_notify t _ => Thread.caller t
  | Event.dtorStore => Thread.owner
  | Event.dtorNotifyAll => Thread.owner
  | Event.dtorJoin => Thread.owner
  | Event.dtorMembers => Thread.owner

/-- Function `foo` of example/test.cpp, lines 4-7: returns its argument (the sleep does not
change the value). -/
def foo (i : Int) : Int := i

/-- One call `pool.add_task(foo, i)` of example/test.cpp line 15, creating packaged task `i`,
followed by worker `i % 4` taking the task and running it. -/
def serve (i : Nat) : List (Event Int Unit) :=
  [Event.add_task_begin (bind foo (i : Int)), Event.add_task_lock i, Event.add_task_emplace i,
   Event.add_task_notify i none, Event.lock (i % 4), Event.cond (i % 4), Event.check (i % 4),
   Event.finish (i % 4)]

/-- A schedule of `main` of example/test.cpp for its first `k` submissions. -/
def mainSchedule : Nat → List (Event Int Unit)
  | 0 => []
  | k + 1 => mainSchedule k ++ serve k

/-- The state `mainSchedule k` leads to from `init 4`. -/
def mainState (k : Nat) : ThreadPool Int Unit :=
  { running_ := true
    workers_ := List.replicate 4 WorkerPc.lockWait
    mutex_ := none
    tasks_ := []
    heap := (List.range k).map
      (fun i : Nat =>
        { fn := bind foo (i : Int), state := Handle.ready (i : Int), call := AddPc.returned })
    dtor := DtorPc.alive
    fault := none
    enqLog := List.range k
    deqLog := (List.range k).map (fun i : Nat => (i % 4, i))
    runLog := (List.range k).map (fun i : Nat => (i % 4, i)) }

/-- A schedule of a one-worker pool in which line 81 and line 82 of the destructor run after
the worker evaluated its loop condition (line 63) and before it calls `wait` (line 64). -/
def lostWakeup : List (Event Int Unit) :=
  [Event.lock 0, Event.cond 0, Event.dtorStore, Event.dtorNotifyAll, Event.wait 0]

/-- The state `lostWakeup` leads to. -/
def lostWakeupState : ThreadPool Int Unit :=
  { running_ := false
    workers_ := [WorkerPc.waiting]
    mutex_ := none
    tasks_ := []
    heap := []
    dtor := DtorPc.joining 0
    fault := none
    enqLog := []
    deqLog := []
    runLog := [] }

/-- A schedule of a one-worker pool: `add_task(foo, 7)` completes, then the destructor starts
and the worker leaves its loop without taking the task. -/
def abandonSchedule : List (Event Int Unit) :=
  [Event.add_task_begin (bind foo 7), Event.add_task_lock 0, Event.add_task_emplace 0, Event.add_task_notify 0 none,
   Event.dtorStore, Event.dtorNotifyAll, Event.lock 0, Event.cond 0, Event.check 0]

/-- The state `abandonSchedule` leads to: the task is queued, the worker has exited. -/
def abandonState : ThreadPool Int Unit :=
  { running_ := false
    workers_ := [WorkerPc.terminated]
    mutex_ := none
    tasks_ := [0]
    heap := [{ fn := bind foo 7, state := Handle.pending, call := AddPc.returned }]
    dtor := DtorPc.joining 0
    fault := none
    enqLog := [0]
    deqLog := []
    runLog := [] }

/-- The rest of the destructor after `abandonSchedule`: the join and the destruction of the
members. -/
def abandonRest : List (Event Int Unit) :=
  [Event.dtorJoin, Event.dtorMembers]

/-- The state after `abandonRest`. -/
def abandonFinal : ThreadPool Int Unit :=
  { running_ := false
    workers_ := [WorkerPc.terminated]
    mutex_ := none
    tasks_ := []
    heap := [{ fn := bind foo 7, state := Handle.failed Failure.brokenPromise,
               call := AddPc.returned }]
    dtor := DtorPc.destroyed
    fault := none
    enqLog := [0]
    deqLog := []
    runLog := [] }

/-- A one-worker pool whose worker has just taken the mutex (line 62). -/
def lockedState : ThreadPool Int Unit :=
  { running_ := true
    workers_ := [WorkerPc.loopCond]
    mutex_ := some (Thread.worker 0)
    tasks_ := []
    heap := []
    dtor := DtorPc.alive
    fault := none
    enqLog := []
    deqLog := []
    runLog := [] }

/-- A schedule of a one-worker pool: two calls of `add_task` complete, then the worker takes
the first task. -/
def fifoSchedule : List (Event Int Unit) :=
  [Event.add_task_begin (bind foo 0), Event.add_task_lock 0, Event.add_task_emplace 0, Event.add_task_notify 0 none,
   Event.add_task_begin (bind foo 1), Event.add_task_lock 1, Event.add_task_emplace 1, Event.add_task_notify 1 none,
   Event.lock 0, Event.cond 0, Event.check 0]

/-- The state `fifoSchedule` leads to. -/
def fifoState : ThreadPool Int Unit :=
  { running_ := true
    workers_ := [WorkerPc.running 0]
    mutex_ := none
    tasks_ := [1]
    heap := [{ fn := bind foo 0, state := Handle.pending, call := AddPc.returned },
             { fn := bind foo 1, state := Handle.pending, call := AddPc.returned }]
    dtor := DtorPc.alive
    fault := none
    enqLog := [0, 1]
    deqLog := [(0, 0)]
    runLog := [] }

/-- A callable that throws. -/
def thrower : Unit → Except Unit Int :=
  fun _ => Except.error ()

/-- A schedule of a one-worker pool: the throwing callable is submitted and the worker takes
it. -/
def throwSchedule : List (Event Int Unit) :=
  [Event.add_task_begin thrower, Event.add_task_lock 0, Event.add_task_emplace 0, Event.add_task_notify 0 none,
   Event.lock 0, Event.cond 0, Event.check 0]

/-- The state `throwSchedule` leads to. -/
def throwState : ThreadPool Int Unit :=
  { running_ := true
    workers_ := [WorkerPc.running 0]
    mutex_ := none
    tasks_ := []
    heap := [{ fn := thrower, state := Handle.pending, call := AddPc.returned }]
    dtor := DtorPc.alive
    fault := none
    enqLog := [0]
    deqLog := [(0, 0)]
    runLog := [] }

/-- A one-worker pool whose worker left the loop of line 63 because a task is queued, after
which the destructor stored `false` in `running_`: the worker is at line 66. -/
def drainState : ThreadPool Int Unit :=
  { running_ := false
    workers_ := [WorkerPc.exitCheck]
    mutex_ := some (Thread.worker 0)
    tasks_ := [0]
    heap := [{ fn := bind foo 7, state := Handle.pending, call := AddPc.returned }]
    dtor := DtorPc.notifyAll
    fault := none
    enqLog := [0]
    deqLog := []
    runLog := [] }

/-- Task `t` was left in the queue by workers that have all exited: it is still queued with a
pending handle, or the pool has been destroyed and its handle holds `broken_promise`. -/
def Abandoned (t : Nat) (s : ThreadPool V E) : Prop :=
  (∀ pc ∈ s.workers_, pc = WorkerPc.terminated) ∧
  ((s.dtor ≠ DtorPc.destroyed ∧ t ∈ s.tasks_ ∧ handle s t = some Handle.pending) ∨
   (s.dtor = DtorPc.destroyed ∧ handle s t = some (Handle.failed Failure.brokenPromise)))

/-- Results of `get()` on the futures of packaged tasks `0 .. k-1`, in submission order
(example/test.cpp lines 20-22). -/
def retrieved (s : ThreadPool V E) (k : Nat) : List (Option (Except (Failure E) V)) :=
  (List.range k).map (futureGet s)

/-- The pool has received the 100 submissions of example/test.cpp lines 14-17: packaged task
`i` is `foo` bound to `i`. -/
def SubmittedMain (s : ThreadPool Int Unit) : Prop :=
  ∀ i : Nat, i < 100 → ∃ p, s.heap[i]? = some p ∧ p.fn = bind foo (i : Int)

/-- Synchronisation invariant of a pool with `n` workers. -/
structure Sync (n : Nat) (s : ThreadPool V E) : Prop where
  len : s.workers_.length = n
  wlock : ∀ (i : Nat) (pc : WorkerPc), s.workers_[i]? = some pc → holdsLock pc = true → s.mutex_ = some (Thread.worker i)
  clock : ∀ (t : Nat) (p : Packaged V E), s.heap[t]? = some p → p.call = AddPc.locked → s.mutex_ = some (Thread.caller t)
  flag : s.dtor ≠ DtorPc.alive → s.running_ = false
  flagT : s.dtor = DtorPc.alive → s.running_ = true
  joined : ∀ k, s.dtor = DtorPc.joining k → k ≤ n ∧ ∀ i : Nat, i < k → s.workers_[i]? = some WorkerPc.terminated
  dead : s.dtor = DtorPc.destroyed →
    (∀ pc ∈ s.workers_, pc = WorkerPc.terminated) ∧ s.tasks_ = [] ∧
    ∀ p ∈ s.heap, p.call = AddPc.returned
  front : ∀ i : Nat, s.workers_[i]? = some WorkerPc.exitCheck → s.running_ = true → s.tasks_ ≠ []
  noFront : s.fault ≠ some Fault.frontOnEmpty

/-- History invariant: how the logs, the queue, the workers and the handles fit together. -/
structure Hist (s : ThreadPool V E) : Prop where
  enqNodup : s.enqLog.Nodup
  enqCell : ∀ t ∈ s.enqLog, ∃ p, s.heap[t]? = some p ∧
    (p.call = AddPc.enqueued ∨ p.call = AddPc.returned)
  fifo : s.dtor ≠ DtorPc.destroyed → s.deqLog.map Prod.snd ++ s.tasks_ = s.enqLog
  fifoD : s.deqLog.map Prod.snd <+: s.enqLog
  held : ∀ (i t : Nat), s.workers_[i]? = some (WorkerPc.running t) →
    (i, t) ∈ s.deqLog ∧ t ∉ s.runLog.map Prod.snd
  ran : ∀ p ∈ s.runLog, p ∈ s.deqLog
  runNodup : (s.runLog.map Prod.snd).Nodup
  owner : ∀ (i t : Nat), (i, t) ∈ s.deqLog →
    s.workers_[i]? = some (WorkerPc.running t) ∨ (i, t) ∈ s.runLog
  cells : ∀ (t : Nat) (p : Packaged V E), s.heap[t]? = some p →
    (t ∈ s.runLog.map Prod.snd → p.state = outcome (p.fn ())) ∧
    (t ∉ s.runLog.map Prod.snd → s.dtor ≠ DtorPc.destroyed → p.state = Handle.pending) ∧
    (t ∉ s.runLog.map Prod.snd →
      p.state = Handle.pending ∨ p.state = Handle.failed Failure.brokenPromise)
  solo : ∀ pc, s.workers_ = [pc] →
    s.deqLog.map Prod.snd = s.runLog.map Prod.snd ++ heldBy pc
  ok : s.fault = none

/-! ## Lemmas -/

/-! ## Reading a list after `set` -/

theorem get_set_some {α : Type} {l : List α} {i j : Nat} {a b : α}
    (h : (l.set i a)[j]? = some b) : (j = i ∧ b = a) ∨ (j ≠ i ∧ l[j]? = some b) := by
  by_cases hij : i = j
  · subst hij
    left
    rw [List.getElem?_set] at h
    simp at h
    exact ⟨rfl, h.2.symm⟩
  · right
    rw [List.getElem?_set_ne hij] at h
    exact ⟨fun h' => hij h'.symm, h⟩

theorem get_set_self {α : Type} {l : List α} {i : Nat} {a b : α}
    (h : l[i]? = some b) : (l.set i a)[i]? = some a := by
  have hlt : i < l.length := by
    by_contra hc
    rw [List.getElem?_eq_none (by omega)] at h
    cases h
  rw [List.getElem?_set]
  simp [hlt]

theorem get_set_other {α : Type} {l : List α} {i j : Nat} {a : α} (h : j ≠ i) :
    (l.set i a)[j]? = l[j]? :=
  List.getElem?_set_ne (fun h' => h h'.symm)

/-! ## What each action requires and produces -/

theorem workerLock_some {s s' : ThreadPool V E} {i : Nat} (h : workerLock s i = some s') :
    (s.workers_[i]? = some WorkerPc.lockWait ∨ s.workers_[i]? = some WorkerPc.woken) ∧
    s.mutex_ = none ∧
    s' = { s with workers_ := s.workers_.set i WorkerPc.loopCond,
                  mutex_ := some (Thread.worker i) } := by
  unfold workerLock at h
  split at h <;> simp_all

theorem workerCond_some {s s' : ThreadPool V E} {i : Nat} (h : workerCond s i = some s') :
    s.workers_[i]? = some WorkerPc.loopCond ∧
    ((s.running_ = true ∧ s.tasks_ = [] ∧
        s' = { s with workers_ := s.workers_.set i WorkerPc.waitCall }) ∨
     ((s.running_ = false ∨ s.tasks_ ≠ []) ∧
        s' = { s with workers_ := s.workers_.set i WorkerPc.exitCheck })) := by
  unfold workerCond at h
  split at h
  · rename_i hpc
    refine ⟨hpc, ?_⟩
    split at h
    · rename_i hc
      simp at hc h
      exact Or.inl ⟨hc.1, hc.2, h.symm⟩
    · rename_i hc
      simp at hc h
      refine Or.inr ⟨?_, h.symm⟩
      by_cases hr : s.running_ = true
      · exact Or.inr (hc hr)
      · left; simpa using hr
  · cases h

theorem workerWait_some {s s' : ThreadPool V E} {i : Nat} (h : workerWait s i = some s') :
    s.workers_[i]? = some WorkerPc.waitCall ∧
    s' = { s with workers_ := s.workers_.set i WorkerPc.waiting, mutex_ := none } := by
  unfold workerWait at h
  split at h <;> simp_all

theorem workerSpurious_some {s s' : ThreadPool V E} {i : Nat} (h : workerSpurious s i = some s') :
    s.workers_[i]? = some WorkerPc.waiting ∧
    s' = { s with workers_ := s.workers_.set i WorkerPc.woken } := by
  unfold workerSpurious at h
  split at h <;> simp_all

theorem workerCheck_some {s s' : ThreadPool V E} {i : Nat} (h : workerCheck s i = some s') :
    s.workers_[i]? = some WorkerPc.exitCheck ∧
    ((s.running_ = false ∧
        s' = { s with workers_ := s.workers_.set i WorkerPc.terminated, mutex_ := none }) ∨
     (s.running_ = true ∧ s.tasks_ = [] ∧ s' = { s with fault := some Fault.frontOnEmpty }) ∨
     (s.running_ = true ∧ ∃ t q, s.tasks_ = t :: q ∧
        s' = { s with tasks_ := q, workers_ := s.workers_.set i (WorkerPc.running t),
                      mutex_ := none, deqLog := s.deqLog ++ [(i, t)] })) := by
  unfold workerCheck at h
  split at h
  · rename_i hpc
    refine ⟨hpc, ?_⟩
    split at h
    · rename_i hc
      simp at hc h
      exact Or.inl ⟨hc, h.symm⟩
    · rename_i hc
      simp at hc
      split at h
      · rename_i hq
        simp at h
        exact Or.inr (Or.inl ⟨hc, hq, h.symm⟩)
      · rename_i t q hq
        simp at h
        exact Or.inr (Or.inr ⟨hc, t, q, hq, h.symm⟩)
  · cases h

theorem workerFinish_some {s s' : ThreadPool V E} {i : Nat} (h : workerFinish s i = some s') :
    ∃ t p, s.workers_[i]? = some (WorkerPc.running t) ∧ s.heap[t]? = some p ∧
    ((p.state = Handle.pending ∧
        s' = { s with heap := s.heap.set t { p with state := outcome (p.fn ()) },
                      workers_ := s.workers_.set i WorkerPc.lockWait,
                      runLog := s.runLog ++ [(i, t)] }) ∨
     (p.state ≠ Handle.pending ∧ s' = { s with fault := some Fault.promiseAlreadySatisfied })) := by
  unfold workerFinish at h
  split at h
  · rename_i t hpc
    split at h
    · rename_i p hp
      refine ⟨t, p, hpc, hp, ?_⟩
      split at h
      · rename_i hst
        simp at h
        exact Or.inl ⟨hst, h.symm⟩
      · rename_i hst
        simp at h
        exact Or.inr ⟨hst, h.symm⟩
    · cases h
  · cases h

theorem add_task_begin_some {s s' : ThreadPool V E} {fn : Unit → Except E V} (h : add_task_begin s fn = some s') :
    s.dtor ≠ DtorPc.destroyed ∧
    s' = { s with heap := s.heap ++ [{ fn := fn, state := Handle.pending, call := AddPc.created }] } := by
  unfold add_task_begin at h
  split at h <;> simp_all

theorem add_task_lock_some {s s' : ThreadPool V E} {t : Nat} (h : add_task_lock s t = some s') :
    ∃ p, s.heap[t]? = some p ∧ p.call = AddPc.created ∧ s.mutex_ = none ∧
    s' = { s with heap := s.heap.set t { p with call := AddPc.locked },
                  mutex_ := some (Thread.caller t) } := by
  unfold add_task_lock at h
  split at h
  · rename_i p hp hm
    split at h
    · rename_i hc
      simp at h
      exact ⟨p, hp, hc, hm, h.symm⟩
    · cases h
  · cases h

theorem add_task_emplace_some {s s' : ThreadPool V E} {t : Nat} (h : add_task_emplace s t = some s') :
    ∃ p, s.heap[t]? = some p ∧ p.call = AddPc.locked ∧
    s' = { s with heap := s.heap.set t { p with call := AddPc.enqueued },
                  tasks_ := s.tasks_ ++ [t], mutex_ := none, enqLog := s.enqLog ++ [t] } := by
  unfold add_task_emplace at h
  split at h
  · rename_i p hp
    split at h
    · rename_i hc
      simp at h
      exact ⟨p, hp, hc, h.symm⟩
    · cases h
  · cases h

theorem add_task_notify_some {s s' : ThreadPool V E} {t : Nat} {w : Option Nat}
    (h : add_task_notify s t w = some s') :
    ∃ p, s.heap[t]? = some p ∧ p.call = AddPc.enqueued ∧
    ((∃ i, w = some i ∧ s.workers_[i]? = some WorkerPc.waiting ∧
        s' = { s with heap := s.heap.set t { p with call := AddPc.returned },
                      workers_ := s.workers_.set i WorkerPc.woken }) ∨
     (w = none ∧ (∀ pc ∈ s.workers_, pc ≠ WorkerPc.waiting) ∧
        s' = { s with heap := s.heap.set t { p with call := AddPc.returned } })) := by
  unfold add_task_notify at h
  split at h
  · rename_i p hp
    split at h
    · rename_i hc
      refine ⟨p, hp, hc, ?_⟩
      split at h
      · rename_i i
        split at h
        · rename_i hw
          simp at h
          exact Or.inl ⟨i, rfl, hw, h.symm⟩
        · cases h
      · split at h
        · rename_i hw
          simp at h hw
          exact Or.inr ⟨rfl, hw, h.symm⟩
        · cases h
    · cases h
  · cases h

theorem dtorStore_some {s s' : ThreadPool V E} (h : dtorStore s = some s') :
    s.dtor = DtorPc.alive ∧ s' = { s with running_ := false, dtor := DtorPc.notifyAll } := by
  unfold dtorStore at h
  split at h <;> simp_all

theorem dtorNotifyAll_some {s s' : ThreadPool V E} (h : dtorNotifyAll s = some s') :
    s.dtor = DtorPc.notifyAll ∧
    s' = { s with workers_ := s.workers_.map wake, dtor := DtorPc.joining 0 } := by
  unfold dtorNotifyAll at h
  split at h <;> simp_all

theorem dtorJoin_some {s s' : ThreadPool V E} (h : dtorJoin s = some s') :
    ∃ i, s.dtor = DtorPc.joining i ∧ s.workers_[i]? = some WorkerPc.terminated ∧
    s' = { s with dtor := DtorPc.joining (i + 1) } := by
  unfold dtorJoin at h
  split at h
  · rename_i i hd
    split at h
    · rename_i hw
      simp at h
      exact ⟨i, hd, hw, h.symm⟩
    · cases h
  · cases h

theorem dtorMembers_some {s s' : ThreadPool V E} (h : dtorMembers s = some s') :
    s.dtor = DtorPc.joining s.workers_.length ∧
    (∀ p ∈ s.heap, p.call = AddPc.returned) ∧
    s' = { s with heap := destroyQueue s.heap s.tasks_, tasks_ := [], dtor := DtorPc.destroyed } := by
  unfold dtorMembers at h
  split at h
  · rename_i i hd
    split at h
    · rename_i hc
      simp at h hc
      obtain ⟨rfl, hall⟩ := hc
      exact ⟨hd, hall, h.symm⟩
    · cases h
  · cases h

theorem step_fault {s s' : ThreadPool V E} {e : Event V E} (h : step s e = some s') :
    s.fault = none := by
  unfold step at h
  split at h
  · cases h
  · rename_i hf
    simpa using hf

/-! ## Destroying the queue -/

theorem abandon_fn (p : Packaged V E) : (abandon p).fn = p.fn := by
  unfold abandon; split <;> rfl

theorem abandon_call (p : Packaged V E) : (abandon p).call = p.call := by
  unfold abandon; split <;> rfl

theorem abandon_abandon (p : Packaged V E) : abandon (abandon p) = abandon p := by
  cases p with
  | mk fn st c => cases st <;> rfl

theorem abandon_state_of_ne {p : Packaged V E} (h : p.state ≠ Handle.pending) :
    abandon p = p := by
  cases p with
  | mk fn st c => cases st <;> first | rfl | exact absurd rfl h

theorem abandon_state_pending {p : Packaged V E} (h : p.state = Handle.pending) :
    (abandon p).state = Handle.failed Failure.brokenPromise := by
  cases p with
  | mk fn st c => cases st <;> first | rfl | cases h

theorem destroyQueue_get (q : List Nat) (heap : List (Packaged V E)) (t : Nat) :
    (destroyQueue heap q)[t]? = (heap[t]?).map (fun p => if t ∈ q then abandon p else p) := by
  induction q generalizing heap with
  | nil => simp [destroyQueue]
  | cons t0 q ih =>
    unfold destroyQueue
    split
    · rename_i p0 hp0
      rw [ih]
      by_cases ht : t = t0
      · subst ht
        rw [get_set_self hp0, hp0]
        by_cases hq : t ∈ q <;> simp [hq, abandon_abandon]
      · rw [get_set_other ht]
        cases hget : heap[t]? with
        | none => rfl
        | some p => simp [ht]
    · rename_i hnone
      rw [ih]
      by_cases ht : t = t0
      · subst ht
        simp [hnone]
      · cases hget : heap[t]? with
        | none => rfl
        | some p => simp [ht]

theorem get_append_single {α : Type} {l : List α} {a b : α} {t : Nat}
    (h : (l ++ [a])[t]? = some b) : l[t]? = some b ∨ (t = l.length ∧ b = a) := by
  by_cases hlt : t < l.length
  · left
    rwa [List.getElem?_append_left hlt] at h
  · right
    rw [List.getElem?_append_right (by omega)] at h
    have : t - l.length = 0 := by
      by_contra hc
      have : ([a] : List α)[t - l.length]? = none := by
        apply List.getElem?_eq_none; simp; omega
      rw [this] at h; cases h
    rw [this] at h
    simp at h
    exact ⟨by omega, h.symm⟩

theorem get_map_wake {l : List WorkerPc} {i : Nat} {pc : WorkerPc}
    (h : (l.map wake)[i]? = some pc) : ∃ pc0, l[i]? = some pc0 ∧ wake pc0 = pc := by
  simpa using h

theorem holdsLock_wake {pc : WorkerPc} (h : holdsLock (wake pc) = true) : holdsLock pc = true := by
  cases pc <;> simp_all [wake, holdsLock]

theorem mem_of_get {α : Type} {l : List α} {i : Nat} {a : α} (h : l[i]? = some a) : a ∈ l :=
  List.getElem?_mem h

theorem lt_of_get {α : Type} {l : List α} {i : Nat} {a : α} (h : l[i]? = some a) :
    i < l.length := by
  by_contra hc
  rw [List.getElem?_eq_none (by omega)] at h
  cases h

theorem sync_init (n : Nat) : Sync n (init n : ThreadPool V E) := by
  refine ⟨by simp [init], ?_, ?_, ?_, ?_, ?_, ?_, ?_, ?_⟩
  · intro i pc h hh
    simp [init, List.getElem?_replicate] at h
    obtain ⟨_, rfl⟩ := h
    simp [holdsLock] at hh
  · intro t p h; simp [init] at h
  · intro h; simp [init] at h
  · intro _; simp [init]
  · intro k h; simp [init] at h
  · intro h; simp [init] at h
  · intro i h
    simp [init, List.getElem?_replicate] at h
  · simp [init]

theorem sync_workerLock {n : Nat} {s s' : ThreadPool V E} {i : Nat} (hs : Sync n s)
    (h : workerLock s i = some s') : Sync n s' := by
  obtain ⟨hpc, hm, rfl⟩ := workerLock_some h
  refine ⟨by simpa using hs.len, ?_, ?_, hs.flag, hs.flagT, ?_, ?_, ?_, hs.noFront⟩
  · intro j pc hj hh
    rcases get_set_some hj with ⟨rfl, rfl⟩ | ⟨hne, hj'⟩
    · rfl
    · have := hs.wlock j pc hj' hh
      simp [hm] at this
  · intro t p hp hc
    have := hs.clock t p hp hc
    simp [hm] at this
  · intro k hk
    refine ⟨(hs.joined k hk).1, fun j hj => ?_⟩
    have hj' := (hs.joined k hk).2 j hj
    by_cases hji : j = i
    · subst hji; rcases hpc with hpc | hpc <;> simp [hpc] at hj'
    · simp only [get_set_other hji]; exact hj'
  · intro hd
    have := (hs.dead hd).1
    rcases hpc with hpc | hpc <;> · have := this _ (mem_of_get hpc); cases this
  · intro j hj
    rcases get_set_some hj with ⟨rfl, hbad⟩ | ⟨hne, hj'⟩
    · cases hbad
    · exact hs.front j hj'

theorem sync_excl {n : Nat} {s : ThreadPool V E} (hs : Sync n s) {i j : Nat} {pi pj : WorkerPc}
    (hi : s.workers_[i]? = some pi) (hli : holdsLock pi = true)
    (hj : s.workers_[j]? = some pj) (hlj : holdsLock pj = true) : j = i := by
  have h1 := hs.wlock i pi hi hli
  have h2 := hs.wlock j pj hj hlj
  rw [h1] at h2
  injection h2 with h2
  injection h2 with h2
  exact h2.symm

theorem sync_workerCond {n : Nat} {s s' : ThreadPool V E} {i : Nat} (hs : Sync n s)
    (h : workerCond s i = some s') : Sync n s' := by
  obtain ⟨hpc, hcase⟩ := workerCond_some h
  have hmi := hs.wlock i _ hpc rfl
  rcases hcase with ⟨hr, hq, rfl⟩ | ⟨hc, rfl⟩
  all_goals
    refine ⟨by simpa using hs.len, ?_, hs.clock, hs.flag, hs.flagT, ?_, ?_, ?_, hs.noFront⟩
  all_goals first
    | (intro j pc hj hh
       rcases get_set_some hj with ⟨rfl, rfl⟩ | ⟨hne, hj'⟩
       · exact hmi
       · exact hs.wlock j pc hj' hh)
    | (intro k hk
       refine ⟨(hs.joined k hk).1, fun j hj => ?_⟩
       have hj' := (hs.joined k hk).2 j hj
       by_cases hji : j = i
       · subst hji; simp [hpc] at hj'
       · simp only [get_set_other hji]; exact hj')
    | (intro hd
       have := (hs.dead hd).1 _ (mem_of_get hpc); cases this)
    | skip
  · intro j hj
    rcases get_set_some hj with ⟨rfl, hbad⟩ | ⟨hne, hj'⟩
    · cases hbad
    · exact hs.front j hj'
  · intro j hj hr
    rcases get_set_some hj with ⟨rfl, _⟩ | ⟨hne, hj'⟩
    · rcases hc with hc | hc
      · exact absurd (hc.symm.trans hr) (by decide)
      · exact hc
    · exact hs.front j hj' hr

theorem sync_workerWait {n : Nat} {s s' : ThreadPool V E} {i : Nat} (hs : Sync n s)
    (h : workerWait s i = some s') : Sync n s' := by
  obtain ⟨hpc, rfl⟩ := workerWait_some h
  have hmi := hs.wlock i _ hpc rfl
  refine ⟨by simpa using hs.len, ?_, ?_, hs.flag, hs.flagT, ?_, ?_, ?_, hs.noFront⟩
  · intro j pc hj hh
    rcases get_set_some hj with ⟨rfl, rfl⟩ | ⟨hne, hj'⟩
    · cases hh
    · exact absurd (sync_excl hs hpc rfl hj' hh) hne
  · intro t p hp hc
    have := hs.clock t p hp hc
    rw [hmi] at this; cases this
  · intro k hk
    refine ⟨(hs.joined k hk).1, fun j hj => ?_⟩
    have hj' := (hs.joined k hk).2 j hj
    by_cases hji : j = i
    · subst hji; simp [hpc] at hj'
    · simp only [get_set_other hji]; exact hj'
  · intro hd
    have := (hs.dead hd).1 _ (mem_of_get hpc); cases this
  · intro j hj
    rcases get_set_some hj with ⟨rfl, hbad⟩ | ⟨hne, hj'⟩
    · cases hbad
    · exact hs.front j hj'

theorem sync_workerSpurious {n : Nat} {s s' : ThreadPool V E} {i : Nat} (hs : Sync n s)
    (h : workerSpurious s i = some s') : Sync n s' := by
  obtain ⟨hpc, rfl⟩ := workerSpurious_some h
  refine ⟨by simpa using hs.len, ?_, hs.clock, hs.flag, hs.flagT, ?_, ?_, ?_, hs.noFront⟩
  · intro j pc hj hh
    rcases get_set_some hj with ⟨rfl, rfl⟩ | ⟨hne, hj'⟩
    · cases hh
    · exact hs.wlock j pc hj' hh
  · intro k hk
    refine ⟨(hs.joined k hk).1, fun j hj => ?_⟩
    have hj' := (hs.joined k hk).2 j hj
    by_cases hji : j = i
    · subst hji; simp [hpc] at hj'
    · simp only [get_set_other hji]; exact hj'
  · intro hd
    have := (hs.dead hd).1 _ (mem_of_get hpc); cases this
  · intro j hj
    rcases get_set_some hj with ⟨rfl, hbad⟩ | ⟨hne, hj'⟩
    · cases hbad
    · exact hs.front j hj'

theorem sync_workerCheck {n : Nat} {s s' : ThreadPool V E} {i : Nat} (hs : Sync n s)
    (h : workerCheck s i = some s') : Sync n s' := by
  obtain ⟨hpc, hcase⟩ := workerCheck_some h
  have hmi := hs.wlock i _ hpc rfl
  have hclock : ∀ (t : Nat) (p : Packaged V E), s.heap[t]? = some p → p.call = AddPc.locked →
      (none : Option Thread) = some (Thread.caller t) := by
    intro t p hp hc
    have := hs.clock t p hp hc
    rw [hmi] at this; cases this
  have hdead : s.dtor ≠ DtorPc.destroyed := by
    intro hd
    have := (hs.dead hd).1 _ (mem_of_get hpc); cases this
  rcases hcase with ⟨hr, rfl⟩ | ⟨hr, hq, rfl⟩ | ⟨hr, t, q, hq, rfl⟩
  · refine ⟨by simpa using hs.len, ?_, hclock, hs.flag, hs.flagT, ?_, fun hd => absurd hd hdead,
      ?_, hs.noFront⟩
    · intro j pc hj hh
      rcases get_set_some hj with ⟨rfl, rfl⟩ | ⟨hne, hj'⟩
      · cases hh
      · exact absurd (sync_excl hs hpc rfl hj' hh) hne
    · intro k hk
      refine ⟨(hs.joined k hk).1, fun j hj => ?_⟩
      have hj' := (hs.joined k hk).2 j hj
      by_cases hji : j = i
      · subst hji; exact get_set_self hpc
      · simp only [get_set_other hji]; exact hj'
    · intro j hj
      rcases get_set_some hj with ⟨rfl, hbad⟩ | ⟨hne, hj'⟩
      · cases hbad
      · exact hs.front j hj'
  · exact absurd hq (hs.front i hpc hr)
  · refine ⟨by simpa using hs.len, ?_, hclock, hs.flag, hs.flagT, ?_, fun hd => absurd hd hdead,
      ?_, hs.noFront⟩
    · intro j pc hj hh
      rcases get_set_some hj with ⟨rfl, rfl⟩ | ⟨hne, hj'⟩
      · cases hh
      · exact absurd (sync_excl hs hpc rfl hj' hh) hne
    · intro k hk
      refine ⟨(hs.joined k hk).1, fun j hj => ?_⟩
      have hj' := (hs.joined k hk).2 j hj
      by_cases hji : j = i
      · subst hji; simp [hpc] at hj'
      · simp only [get_set_other hji]; exact hj'
    · intro j hj
      rcases get_set_some hj with ⟨rfl, hbad⟩ | ⟨hne, hj'⟩
      · cases hbad
      · exact absurd (sync_excl hs hpc rfl hj' rfl) hne

theorem sync_workerFinish {n : Nat} {s s' : ThreadPool V E} {i : Nat} (hs : Sync n s)
    (h : workerFinish s i = some s') : Sync n s' := by
  obtain ⟨t, p, hpc, hp, hcase⟩ := workerFinish_some h
  rcases hcase with ⟨hst, rfl⟩ | ⟨hst, rfl⟩
  · refine ⟨by simpa using hs.len, ?_, ?_, hs.flag, hs.flagT, ?_, ?_, ?_, hs.noFront⟩
    · intro j pc hj hh
      rcases get_set_some hj with ⟨rfl, rfl⟩ | ⟨hne, hj'⟩
      · cases hh
      · exact hs.wlock j pc hj' hh
    · intro t' p' hp' hc
      rcases get_set_some hp' with ⟨rfl, rfl⟩ | ⟨hne, hp''⟩
      · exact hs.clock _ p hp hc
      · exact hs.clock t' p' hp'' hc
    · intro k hk
      refine ⟨(hs.joined k hk).1, fun j hj => ?_⟩
      have hj' := (hs.joined k hk).2 j hj
      by_cases hji : j = i
      · subst hji; simp [hpc] at hj'
      · simp only [get_set_other hji]; exact hj'
    · intro hd
      have := (hs.dead hd).1 _ (mem_of_get hpc); cases this
    · intro j hj
      rcases get_set_some hj with ⟨rfl, hbad⟩ | ⟨hne, hj'⟩
      · cases hbad
      · exact hs.front j hj'
  · exact ⟨hs.len, hs.wlock, hs.clock, hs.flag, hs.flagT, hs.joined, hs.dead, hs.front,
      by simp⟩

theorem sync_add_task_begin {n : Nat} {s s' : ThreadPool V E} {fn : Unit → Except E V} (hs : Sync n s)
    (h : add_task_begin s fn = some s') : Sync n s' := by
  obtain ⟨hd, rfl⟩ := add_task_begin_some h
  refine ⟨hs.len, hs.wlock, ?_, hs.flag, hs.flagT, hs.joined, fun hd' => absurd hd' hd,
    hs.front, hs.noFront⟩
  intro t p hp hc
  rcases get_append_single hp with hp' | ⟨_, rfl⟩
  · exact hs.clock t p hp' hc
  · cases hc

theorem sync_add_task_lock {n : Nat} {s s' : ThreadPool V E} {t : Nat} (hs : Sync n s)
    (h : add_task_lock s t = some s') : Sync n s' := by
  obtain ⟨p, hp, hc, hm, rfl⟩ := add_task_lock_some h
  refine ⟨hs.len, ?_, ?_, hs.flag, hs.flagT, hs.joined, ?_, hs.front, hs.noFront⟩
  · intro j pc hj hh
    have := hs.wlock j pc hj hh
    rw [hm] at this; cases this
  · intro t' p' hp' hc'
    rcases get_set_some hp' with ⟨rfl, rfl⟩ | ⟨hne, hp''⟩
    · rfl
    · have := hs.clock t' p' hp'' hc'
      rw [hm] at this; cases this
  · intro hd
    have := (hs.dead hd).2.2 p (mem_of_get hp)
    rw [hc] at this; cases this

theorem sync_add_task_emplace {n : Nat} {s s' : ThreadPool V E} {t : Nat} (hs : Sync n s)
    (h : add_task_emplace s t = some s') : Sync n s' := by
  obtain ⟨p, hp, hc, rfl⟩ := add_task_emplace_some h
  have hm := hs.clock t p hp hc
  refine ⟨hs.len, ?_, ?_, hs.flag, hs.flagT, hs.joined, ?_, ?_, hs.noFront⟩
  · intro j pc hj hh
    have := hs.wlock j pc hj hh
    rw [hm] at this; cases this
  · intro t' p' hp' hc'
    rcases get_set_some hp' with ⟨rfl, rfl⟩ | ⟨hne, hp''⟩
    · cases hc'
    · have := hs.clock t' p' hp'' hc'
      rw [hm] at this
      injection this with this
      injection this with this
      exact absurd this.symm hne
  · intro hd
    have := (hs.dead hd).2.2 p (mem_of_get hp)
    rw [hc] at this; cases this
  · intro j _ _
    simp

theorem sync_add_task_notify {n : Nat} {s s' : ThreadPool V E} {t : Nat} {w : Option Nat} (hs : Sync n s)
    (h : add_task_notify s t w = some s') : Sync n s' := by
  obtain ⟨p, hp, hc, hcase⟩ := add_task_notify_some h
  have hclock : ∀ (t' : Nat) (p' : Packaged V E),
      (s.heap.set t { p with call := AddPc.returned })[t']? = some p' →
      p'.call = AddPc.locked → s.mutex_ = some (Thread.caller t') := by
    intro t' p' hp' hc'
    rcases get_set_some hp' with ⟨rfl, rfl⟩ | ⟨hne, hp''⟩
    · cases hc'
    · exact hs.clock t' p' hp'' hc'
  have hdead : s.dtor ≠ DtorPc.destroyed := by
    intro hd
    have := (hs.dead hd).2.2 p (mem_of_get hp)
    rw [hc] at this; cases this
  rcases hcase with ⟨i, rfl, hpc, rfl⟩ | ⟨rfl, _, rfl⟩
  · refine ⟨by simpa using hs.len, ?_, hclock, hs.flag, hs.flagT, ?_, fun hd => absurd hd hdead,
      ?_, hs.noFront⟩
    · intro j pc hj hh
      rcases get_set_some hj with ⟨rfl, rfl⟩ | ⟨hne, hj'⟩
      · cases hh
      · exact hs.wlock j pc hj' hh
    · intro k hk
      refine ⟨(hs.joined k hk).1, fun j hj => ?_⟩
      have hj' := (hs.joined k hk).2 j hj
      by_cases hji : j = i
      · subst hji; simp [hpc] at hj'
      · simp only [get_set_other hji]; exact hj'
    · intro j hj
      rcases get_set_some hj with ⟨rfl, hbad⟩ | ⟨hne, hj'⟩
      · cases hbad
      · exact hs.front j hj'
  · exact ⟨hs.len, hs.wlock, hclock, hs.flag, hs.flagT, hs.joined, fun hd => absurd hd hdead,
      hs.front, hs.noFront⟩

theorem sync_dtorStore {n : Nat} {s s' : ThreadPool V E} (hs : Sync n s)
    (h : dtorStore s = some s') : Sync n s' := by
  obtain ⟨hd, rfl⟩ := dtorStore_some h
  refine ⟨hs.len, hs.wlock, hs.clock, fun _ => rfl, ?_, ?_, ?_, ?_, hs.noFront⟩
  · intro h'; cases h'
  · intro k h'; cases h'
  · intro h'; cases h'
  · intro j _ h'; cases h'

theorem sync_dtorNotifyAll {n : Nat} {s s' : ThreadPool V E} (hs : Sync n s)
    (h : dtorNotifyAll s = some s') : Sync n s' := by
  obtain ⟨hd, rfl⟩ := dtorNotifyAll_some h
  have hrun : s.running_ = false := hs.flag (by rw [hd]; intro h'; cases h')
  refine ⟨by simpa using hs.len, ?_, hs.clock, fun _ => hrun, ?_, ?_, ?_, ?_, hs.noFront⟩
  · intro j pc hj hh
    obtain ⟨pc0, hj0, rfl⟩ := get_map_wake hj
    exact hs.wlock j pc0 hj0 (holdsLock_wake hh)
  · intro h'; cases h'
  · intro k hk
    injection hk with hk
    subst hk
    exact ⟨Nat.zero_le _, fun i hi => absurd hi (Nat.not_lt_zero _)⟩
  · intro h'; cases h'
  · intro j _ h'
    rw [hrun] at h'; cases h'

theorem sync_dtorJoin {n : Nat} {s s' : ThreadPool V E} (hs : Sync n s)
    (h : dtorJoin s = some s') : Sync n s' := by
  obtain ⟨i, hd, hw, rfl⟩ := dtorJoin_some h
  have hrun : s.running_ = false := hs.flag (by rw [hd]; intro h'; cases h')
  refine ⟨hs.len, hs.wlock, hs.clock, fun _ => hrun, ?_, ?_, ?_, hs.front, hs.noFront⟩
  · intro h'; cases h'
  · intro k hk
    injection hk with hk
    subst hk
    have hlt := lt_of_get hw
    rw [hs.len] at hlt
    refine ⟨hlt, fun j hj => ?_⟩
    by_cases hji : j = i
    · subst hji; exact hw
    · exact (hs.joined i hd).2 j (by omega)
  · intro h'; cases h'

theorem sync_dtorMembers {n : Nat} {s s' : ThreadPool V E} (hs : Sync n s)
    (h : dtorMembers s = some s') : Sync n s' := by
  obtain ⟨hd, hall, rfl⟩ := dtorMembers_some h
  have hrun : s.running_ = false := hs.flag (by rw [hd]; intro h'; cases h')
  have hcall : ∀ (t : Nat) (p : Packaged V E), (destroyQueue s.heap s.tasks_)[t]? = some p →
      p.call = AddPc.returned := by
    intro t p hp
    rw [destroyQueue_get] at hp
    cases hget : s.heap[t]? with
    | none => rw [hget] at hp; cases hp
    | some p0 =>
      rw [hget] at hp
      simp at hp
      have h0 := hall p0 (mem_of_get hget)
      subst hp
      split
      · rw [abandon_call]; exact h0
      · exact h0
  refine ⟨hs.len, hs.wlock, ?_, fun _ => hrun, ?_, ?_, ?_, ?_, hs.noFront⟩
  · intro t p hp hc
    have := hcall t p hp
    rw [hc] at this; cases this
  · intro h'; cases h'
  · intro k h'; cases h'
  · intro _
    refine ⟨?_, rfl, ?_⟩
    · intro pc hpc
      obtain ⟨i, hi⟩ := List.mem_iff_getElem?.1 hpc
      have := (hs.joined _ hd).2 i (lt_of_get hi)
      rw [hi] at this
      injection this
    · intro p hp
      obtain ⟨t, ht⟩ := List.mem_iff_getElem?.1 hp
      exact hcall t p ht
  · intro j _ h'
    rw [hrun] at h'; cases h'

theorem sync_step {n : Nat} {s s' : ThreadPool V E} {e : Event V E} (hs : Sync n s)
    (h : step s e = some s') : Sync n s' := by
  have hf := step_fault h
  unfold step at h
  simp only [hf, Option.isSome_none, Bool.false_eq_true, if_false] at h
  cases e with
  | lock i => exact sync_workerLock hs h
  | cond i => exact sync_workerCond hs h
  | wait i => exact sync_workerWait hs h
  | spurious i => exact sync_workerSpurious hs h
  | check i => exact sync_workerCheck hs h
  | finish i => exact sync_workerFinish hs h
  | add_task_begin fn => exact sync_add_task_begin hs h
  | add_task_lock t => exact sync_add_task_lock hs h
  | add_task_emplace t => exact sync_add_task_emplace hs h
  | add_task_notify t w => exact sync_add_task_notify hs h
  | dtorStore => exact sync_dtorStore hs h
  | dtorNotifyAll => exact sync_dtorNotifyAll hs h
  | dtorJoin => exact sync_dtorJoin hs h
  | dtorMembers => exact sync_dtorMembers hs h

theorem hist_init (n : Nat) : Hist (init n : ThreadPool V E) := by
  refine ⟨by simp [init], ?_, ?_, ?_, ?_, ?_, ?_, ?_, ?_, ?_, rfl⟩
  · intro t h; simp [init] at h
  · intro _; simp [init]
  · simp [init]
  · intro i t h
    simp [init, List.getElem?_replicate] at h
  · intro p h; simp [init] at h
  · simp [init]
  · intro i t h; simp [init] at h
  · intro t p h; simp [init] at h
  · intro pc h
    simp only [init] at h ⊢
    cases n with
    | zero => simp at h
    | succ m =>
      simp [List.replicate_succ] at h
      rw [← h.1]
      simp [heldBy]

theorem hist_deqNodup {s : ThreadPool V E} (hs : Hist s) : (s.deqLog.map Prod.snd).Nodup :=
  hs.enqNodup.sublist hs.fifoD.sublist

theorem snd_unique {l : List (Nat × Nat)} (h : (l.map Prod.snd).Nodup) {a b t : Nat}
    (ha : (a, t) ∈ l) (hb : (b, t) ∈ l) : a = b := by
  induction l with
  | nil => cases ha
  | cons x xs ih =>
    simp only [List.map_cons, List.nodup_cons, List.mem_map, not_exists, not_and] at h
    rcases List.mem_cons.1 ha with rfl | ha'
    · rcases List.mem_cons.1 hb with hb' | hb'
      · exact (Prod.mk.inj hb').1.symm
      · exact absurd rfl (h.1 (b, t) hb')
    · rcases List.mem_cons.1 hb with rfl | hb'
      · exact absurd rfl (h.1 (a, t) ha')
      · exact ih h.2 ha' hb'

/-- Frame rule: an action that moves no worker into or out of `running`, leaves queue, logs
and fault alone, keeps handles and callables, and does not destroy the pool, preserves the
history invariant. -/
theorem hist_frame {s s' : ThreadPool V E} (hs : Hist s)
    (hw : ∀ (j t : Nat), s'.workers_[j]? = some (WorkerPc.running t) ↔
      s.workers_[j]? = some (WorkerPc.running t))
    (hsolo : ∀ pc', s'.workers_ = [pc'] → ∃ pc, s.workers_ = [pc] ∧ heldBy pc = heldBy pc')
    (hq : s'.tasks_ = s.tasks_) (henq : s'.enqLog = s.enqLog) (hdeq : s'.deqLog = s.deqLog)
    (hrun : s'.runLog = s.runLog) (hf : s'.fault = s.fault)
    (hd : s.dtor = DtorPc.destroyed → s'.dtor = DtorPc.destroyed)
    (h1 : ∀ (t : Nat) (p' : Packaged V E), s'.heap[t]? = some p' →
      ∃ p, s.heap[t]? = some p ∧ p'.state = p.state ∧ p'.fn = p.fn)
    (h2 : ∀ (t : Nat) (p : Packaged V E), s.heap[t]? = some p →
      ∃ p', s'.heap[t]? = some p' ∧
        (p.call = AddPc.enqueued ∨ p.call = AddPc.returned →
          p'.call = AddPc.enqueued ∨ p'.call = AddPc.returned)) :
    Hist s' := by
  refine ⟨by rw [henq]; exact hs.enqNodup, ?_, ?_, by rw [hdeq, henq]; exact hs.fifoD, ?_, ?_,
    by rw [hrun]; exact hs.runNodup, ?_, ?_, ?_, by rw [hf]; exact hs.ok⟩
  · intro t ht
    rw [henq] at ht
    obtain ⟨p, hp, hc⟩ := hs.enqCell t ht
    obtain ⟨p', hp', hc'⟩ := h2 t p hp
    exact ⟨p', hp', hc' hc⟩
  · intro hd'
    rw [hdeq, hq, henq]
    exact hs.fifo (fun h => hd' (hd h))
  · intro i t hi
    rw [hdeq, hrun]
    exact hs.held i t ((hw i t).1 hi)
  · intro p hp
    rw [hrun] at hp; rw [hdeq]
    exact hs.ran p hp
  · intro i t hi
    rw [hdeq] at hi; rw [hrun, hw]
    exact hs.owner i t hi
  · intro t p' hp'
    obtain ⟨p, hp, hst, hfn⟩ := h1 t p' hp'
    rw [hrun, hst, hfn]
    refine ⟨(hs.cells t p hp).1, fun hn hd' => (hs.cells t p hp).2.1 hn ?_,
      (hs.cells t p hp).2.2⟩
    exact fun hsd => hd' (hd hsd)
  · intro pc' hpc'
    obtain ⟨pc, hpc, hh⟩ := hsolo pc' hpc'
    rw [hdeq, hrun, ← hh]
    exact hs.solo pc hpc

theorem set_singleton {α : Type} {l : List α} {i : Nat} {a b c : α} (h : l[i]? = some a)
    (h' : l.set i b = [c]) : l = [a] ∧ c = b := by
  cases l with
  | nil => simp at h
  | cons x xs =>
    cases i with
    | zero =>
      simp at h h'
      exact ⟨by rw [h, h'.2], h'.1.symm⟩
    | succ k =>
      simp at h h'
      have hx : xs = [] := by
        cases xs with
        | nil => rfl
        | cons y ys => simp at h'
      subst hx
      simp at h

theorem running_set_iff {l : List WorkerPc} {i : Nat} {a b : WorkerPc} (h : l[i]? = some a)
    (ha : heldBy a = []) (hb : heldBy b = []) (j t : Nat) :
    (l.set i b)[j]? = some (WorkerPc.running t) ↔ l[j]? = some (WorkerPc.running t) := by
  by_cases hji : j = i
  · subst hji
    rw [get_set_self h, h]
    constructor
    · intro hh; injection hh with hh; subst hh; simp [heldBy] at hb
    · intro hh; injection hh with hh; subst hh; simp [heldBy] at ha
  · rw [get_set_other hji]

theorem solo_set {l : List WorkerPc} {i : Nat} {a b : WorkerPc} (h : l[i]? = some a)
    (hab : heldBy a = heldBy b) :
    ∀ pc', l.set i b = [pc'] → ∃ pc, l = [pc] ∧ heldBy pc = heldBy pc' := by
  intro pc' hpc'
  obtain ⟨hl, rfl⟩ := set_singleton h hpc'
  exact ⟨a, hl, hab⟩

theorem heap_same (heap : List (Packaged V E)) :
    (∀ (t : Nat) (p' : Packaged V E), heap[t]? = some p' →
      ∃ p, heap[t]? = some p ∧ p'.state = p.state ∧ p'.fn = p.fn) ∧
    (∀ (t : Nat) (p : Packaged V E), heap[t]? = some p →
      ∃ p', heap[t]? = some p' ∧
        (p.call = AddPc.enqueued ∨ p.call = AddPc.returned →
          p'.call = AddPc.enqueued ∨ p'.call = AddPc.returned)) :=
  ⟨fun _ p h => ⟨p, h, rfl, rfl⟩, fun _ p h => ⟨p, h, id⟩⟩

theorem heap_call {heap : List (Packaged V E)} {t0 : Nat} {p0 : Packaged V E} {c : AddPc}
    (hp0 : heap[t0]? = some p0)
    (hc : p0.call = AddPc.enqueued ∨ p0.call = AddPc.returned →
      c = AddPc.enqueued ∨ c = AddPc.returned) :
    (∀ (t : Nat) (p' : Packaged V E), (heap.set t0 { p0 with call := c })[t]? = some p' →
      ∃ p, heap[t]? = some p ∧ p'.state = p.state ∧ p'.fn = p.fn) ∧
    (∀ (t : Nat) (p : Packaged V E), heap[t]? = some p →
      ∃ p', (heap.set t0 { p0 with call := c })[t]? = some p' ∧
        (p.call = AddPc.enqueued ∨ p.call = AddPc.returned →
          p'.call = AddPc.enqueued ∨ p'.call = AddPc.returned)) := by
  constructor
  · intro t p' hp'
    rcases get_set_some hp' with ⟨rfl, rfl⟩ | ⟨hne, hp''⟩
    · exact ⟨p0, hp0, rfl, rfl⟩
    · exact ⟨p', hp'', rfl, rfl⟩
  · intro t p hp
    by_cases ht : t = t0
    · subst ht
      rw [hp0] at hp
      injection hp with hp
      subst hp
      exact ⟨_, get_set_self hp0, hc⟩
    · exact ⟨p, by rw [get_set_other ht]; exact hp, id⟩

theorem hist_workerLock {s s' : ThreadPool V E} {i : Nat} (hs : Hist s)
    (h : workerLock s i = some s') : Hist s' := by
  obtain ⟨hpc, hm, rfl⟩ := workerLock_some h
  rcases hpc with hpc | hpc
  all_goals
    exact hist_frame hs (running_set_iff hpc rfl rfl) (solo_set hpc rfl) rfl rfl rfl rfl rfl id
      (heap_same _).1 (heap_same _).2

theorem hist_workerCond {s s' : ThreadPool V E} {i : Nat} (hs : Hist s)
    (h : workerCond s i = some s') : Hist s' := by
  obtain ⟨hpc, hcase⟩ := workerCond_some h
  rcases hcase with ⟨_, _, rfl⟩ | ⟨_, rfl⟩
  all_goals
    exact hist_frame hs (running_set_iff hpc rfl rfl) (solo_set hpc rfl) rfl rfl rfl rfl rfl id
      (heap_same _).1 (heap_same _).2

theorem hist_workerWait {s s' : ThreadPool V E} {i : Nat} (hs : Hist s)
    (h : workerWait s i = some s') : Hist s' := by
  obtain ⟨hpc, rfl⟩ := workerWait_some h
  exact hist_frame hs (running_set_iff hpc rfl rfl) (solo_set hpc rfl) rfl rfl rfl rfl rfl id
    (heap_same _).1 (heap_same _).2

theorem hist_workerSpurious {s s' : ThreadPool V E} {i : Nat} (hs : Hist s)
    (h : workerSpurious s i = some s') : Hist s' := by
  obtain ⟨hpc, rfl⟩ := workerSpurious_some h
  exact hist_frame hs (running_set_iff hpc rfl rfl) (solo_set hpc rfl) rfl rfl rfl rfl rfl id
    (heap_same _).1 (heap_same _).2

theorem hist_add_task_lock {s s' : ThreadPool V E} {t : Nat} (hs : Hist s)
    (h : add_task_lock s t = some s') : Hist s' := by
  obtain ⟨p, hp, hc, hm, rfl⟩ := add_task_lock_some h
  have hh := heap_call (c := AddPc.locked) hp (by rw [hc]; intro h'; rcases h' with h' | h' <;> cases h')
  exact hist_frame hs (fun _ _ => Iff.rfl) (fun pc' h' => ⟨pc', h', rfl⟩) rfl rfl rfl rfl rfl id
    hh.1 hh.2

theorem hist_add_task_notify {s s' : ThreadPool V E} {t : Nat} {w : Option Nat} (hs : Hist s)
    (h : add_task_notify s t w = some s') : Hist s' := by
  obtain ⟨p, hp, hc, hcase⟩ := add_task_notify_some h
  have hh := heap_call (c := AddPc.returned) hp (fun _ => Or.inr rfl)
  rcases hcase with ⟨i, rfl, hpc, rfl⟩ | ⟨rfl, _, rfl⟩
  · exact hist_frame hs (running_set_iff hpc rfl rfl) (solo_set hpc rfl) rfl rfl rfl rfl rfl id
      hh.1 hh.2
  · exact hist_frame hs (fun _ _ => Iff.rfl) (fun pc' h' => ⟨pc', h', rfl⟩) rfl rfl rfl rfl rfl
      id hh.1 hh.2

theorem hist_dtorStore {s s' : ThreadPool V E} (hs : Hist s)
    (h : dtorStore s = some s') : Hist s' := by
  obtain ⟨hd, rfl⟩ := dtorStore_some h
  exact hist_frame hs (fun _ _ => Iff.rfl) (fun pc' h' => ⟨pc', h', rfl⟩) rfl rfl rfl rfl rfl
    (fun h' => by rw [hd] at h'; cases h') (heap_same _).1 (heap_same _).2

theorem heldBy_wake (pc : WorkerPc) : heldBy (wake pc) = heldBy pc := by
  cases pc <;> rfl

theorem wake_running {pc : WorkerPc} {t : Nat} :
    wake pc = WorkerPc.running t ↔ pc = WorkerPc.running t := by
  cases pc <;> simp [wake]

theorem hist_dtorNotifyAll {s s' : ThreadPool V E} (hs : Hist s)
    (h : dtorNotifyAll s = some s') : Hist s' := by
  obtain ⟨hd, rfl⟩ := dtorNotifyAll_some h
  refine hist_frame hs ?_ ?_ rfl rfl rfl rfl rfl
    (fun h' => by rw [hd] at h'; cases h') (heap_same _).1 (heap_same _).2
  · intro j t
    simp only [List.getElem?_map]
    cases hj : s.workers_[j]? with
    | none => simp
    | some pc => simp [wake_running]
  · intro pc' hpc'
    cases hl : s.workers_ with
    | nil => simp [hl] at hpc'
    | cons x xs =>
      simp [hl] at hpc'
      obtain ⟨hx, hxs⟩ := hpc'
      subst hxs
      exact ⟨x, rfl, by rw [← hx, heldBy_wake]⟩

theorem hist_dtorJoin {s s' : ThreadPool V E} (hs : Hist s)
    (h : dtorJoin s = some s') : Hist s' := by
  obtain ⟨i, hd, hw, rfl⟩ := dtorJoin_some h
  exact hist_frame hs (fun _ _ => Iff.rfl) (fun pc' h' => ⟨pc', h', rfl⟩) rfl rfl rfl rfl rfl
    (fun h' => by rw [hd] at h'; cases h') (heap_same _).1 (heap_same _).2

theorem sync_alive_of_worker {n : Nat} {s : ThreadPool V E} (hs : Sync n s) {i : Nat} {pc : WorkerPc}
    (hpc : s.workers_[i]? = some pc) (hne : pc ≠ WorkerPc.terminated) :
    s.dtor ≠ DtorPc.destroyed := by
  intro hd
  exact hne ((hs.dead hd).1 _ (mem_of_get hpc))

theorem hist_workerCheck {n : Nat} {s s' : ThreadPool V E} {i : Nat} (hy : Sync n s) (hs : Hist s)
    (h : workerCheck s i = some s') : Hist s' := by
  obtain ⟨hpc, hcase⟩ := workerCheck_some h
  have hnd := sync_alive_of_worker hy hpc (by intro h'; cases h')
  rcases hcase with ⟨hr, rfl⟩ | ⟨hr, hq, rfl⟩ | ⟨hr, t, q, hq, rfl⟩
  · exact hist_frame hs (running_set_iff hpc rfl rfl) (solo_set hpc rfl) rfl rfl rfl rfl rfl id
      (heap_same _).1 (heap_same _).2
  · exact absurd hq (hy.front i hpc hr)
  · have hfifo := hs.fifo hnd
    rw [hq] at hfifo
    have hnd' := hs.enqNodup
    rw [← hfifo] at hnd'
    have htdeq : t ∉ s.deqLog.map Prod.snd := by
      intro hmem
      have := List.disjoint_of_nodup_append hnd' hmem
      exact this (List.mem_cons_self _ _)
    refine ⟨hs.enqNodup, hs.enqCell, ?_, ?_, ?_, ?_, hs.runNodup, ?_, hs.cells, ?_, hs.ok⟩
    · intro _
      simp only [List.map_append, List.map_cons, List.map_nil, List.append_assoc,
        List.singleton_append]
      exact hfifo
    · refine ⟨q, ?_⟩
      simp only [List.map_append, List.map_cons, List.map_nil, List.append_assoc,
        List.singleton_append]
      exact hfifo
    · intro j t' hj
      rcases get_set_some hj with ⟨rfl, hrun⟩ | ⟨hne, hj'⟩
      · injection hrun with hrun
        subst hrun
        refine ⟨by simp, ?_⟩
        intro hmem
        obtain ⟨⟨w, t''⟩, hw, rfl⟩ := List.mem_map.1 hmem
        exact htdeq (List.mem_map.2 ⟨(w, t''), hs.ran _ hw, rfl⟩)
      · exact ⟨List.mem_append_left _ (hs.held j t' hj').1, (hs.held j t' hj').2⟩
    · intro p hp
      exact List.mem_append_left _ (hs.ran p hp)
    · intro j t' hj
      rcases List.mem_append.1 hj with hj' | hj'
      · rcases hs.owner j t' hj' with ho | ho
        · left
          have hji : j ≠ i := by
            rintro rfl
            rw [hpc] at ho; cases ho
          rw [get_set_other hji]; exact ho
        · exact Or.inr ho
      · simp only [List.mem_singleton, Prod.mk.injEq] at hj'
        obtain ⟨rfl, rfl⟩ := hj'
        exact Or.inl (get_set_self hpc)
    · intro pc' hpc'
      obtain ⟨hl, rfl⟩ := set_singleton hpc hpc'
      have := hs.solo _ hl
      simp only [List.map_append, List.map_cons, List.map_nil, heldBy] at this ⊢
      rw [this]
      simp

theorem hist_workerFinish {n : Nat} {s s' : ThreadPool V E} {i : Nat} (hy : Sync n s) (hs : Hist s)
    (h : workerFinish s i = some s') : Hist s' := by
  obtain ⟨t, p, hpc, hp, hcase⟩ := workerFinish_some h
  have hnd := sync_alive_of_worker hy hpc (by intro h'; cases h')
  have hheld := hs.held i t hpc
  rcases hcase with ⟨hst, rfl⟩ | ⟨hst, rfl⟩
  · refine ⟨hs.enqNodup, ?_, hs.fifo, hs.fifoD, ?_, ?_, ?_, ?_, ?_, ?_, hs.ok⟩
    · intro t' ht'
      obtain ⟨p', hp', hc'⟩ := hs.enqCell t' ht'
      by_cases htt : t' = t
      · subst htt
        rw [hp] at hp'
        injection hp' with hp'
        subst hp'
        exact ⟨_, get_set_self hp, hc'⟩
      · exact ⟨p', by rw [get_set_other htt]; exact hp', hc'⟩
    · intro j t' hj
      rcases get_set_some hj with ⟨rfl, hbad⟩ | ⟨hne, hj'⟩
      · cases hbad
      · have hh := hs.held j t' hj'
        refine ⟨hh.1, ?_⟩
        simp only [List.map_append, List.map_cons, List.map_nil, List.mem_append,
          List.mem_singleton, not_or]
        refine ⟨hh.2, ?_⟩
        rintro rfl
        exact hne (snd_unique (hist_deqNodup hs) hh.1 hheld.1)
    · intro p' hp'
      rcases List.mem_append.1 hp' with hp'' | hp''
      · exact hs.ran p' hp''
      · simp only [List.mem_singleton] at hp''
        subst hp''
        exact hheld.1
    · simp only [List.map_append, List.map_cons, List.map_nil]
      rw [List.nodup_append]
      refine ⟨hs.runNodup, List.nodup_singleton _, ?_⟩
      intro a ha hb
      simp only [List.mem_singleton] at hb
      subst hb
      exact hheld.2 ha
    · intro j t' hj
      rcases hs.owner j t' hj with ho | ho
      · by_cases hji : j = i
        · subst hji
          rw [hpc] at ho
          injection ho with ho
          injection ho with ho
          subst ho
          exact Or.inr (by simp)
        · left; rw [get_set_other hji]; exact ho
      · exact Or.inr (List.mem_append_left _ ho)
    · intro t' p' hp'
      simp only [List.map_append, List.map_cons, List.map_nil, List.mem_append,
        List.mem_singleton]
      rcases get_set_some hp' with ⟨rfl, rfl⟩ | ⟨hne, hp''⟩
      · exact ⟨fun _ => rfl, fun hn => absurd (Or.inr rfl) hn,
          fun hn => absurd (Or.inr rfl) hn⟩
      · have hc := hs.cells t' p' hp''
        refine ⟨?_, fun hn => hc.2.1 (fun hm => hn (Or.inl hm)),
          fun hn => hc.2.2 (fun hm => hn (Or.inl hm))⟩
        rintro (hm | hm)
        · exact hc.1 hm
        · exact absurd hm hne
    · intro pc' hpc'
      obtain ⟨hl, rfl⟩ := set_singleton hpc hpc'
      have := hs.solo _ hl
      simp only [List.map_append, List.map_cons, List.map_nil, heldBy] at this ⊢
      rw [this]
      simp
  · exact absurd ((hs.cells t p hp).2.1 hheld.2 hnd) hst

theorem hist_add_task_begin {s s' : ThreadPool V E} {fn : Unit → Except E V} (hs : Hist s)
    (h : add_task_begin s fn = some s') : Hist s' := by
  obtain ⟨hd, rfl⟩ := add_task_begin_some h
  refine ⟨hs.enqNodup, ?_, hs.fifo, hs.fifoD, hs.held, hs.ran, hs.runNodup, hs.owner, ?_,
    hs.solo, hs.ok⟩
  · intro t ht
    obtain ⟨p, hp, hc⟩ := hs.enqCell t ht
    exact ⟨p, by rw [List.getElem?_append_left (lt_of_get hp)]; exact hp, hc⟩
  · intro t p hp
    rcases get_append_single hp with hp' | ⟨rfl, rfl⟩
    · exact hs.cells t p hp'
    · refine ⟨?_, fun _ _ => rfl, fun _ => Or.inl rfl⟩
      intro hmem
      obtain ⟨⟨w, t'⟩, hw, ht'⟩ := List.mem_map.1 hmem
      have h1 : t' ∈ s.deqLog.map Prod.snd := List.mem_map.2 ⟨(w, t'), hs.ran _ hw, rfl⟩
      obtain ⟨p, hp', _⟩ := hs.enqCell t' (hs.fifoD.subset h1)
      have := lt_of_get hp'
      simp only at ht'
      omega

theorem hist_add_task_emplace {s s' : ThreadPool V E} {t : Nat} (hs : Hist s)
    (h : add_task_emplace s t = some s') : Hist s' := by
  obtain ⟨p, hp, hc, rfl⟩ := add_task_emplace_some h
  have hh := heap_call (c := AddPc.enqueued) hp (fun _ => Or.inl rfl)
  have htn : t ∉ s.enqLog := by
    intro ht
    obtain ⟨p', hp', hc'⟩ := hs.enqCell t ht
    rw [hp] at hp'
    injection hp' with hp'
    subst hp'
    rw [hc] at hc'
    rcases hc' with hc' | hc' <;> cases hc'
  refine ⟨?_, ?_, ?_, ?_, hs.held, hs.ran, hs.runNodup, hs.owner, ?_, hs.solo, hs.ok⟩
  · rw [List.nodup_append]
    refine ⟨hs.enqNodup, List.nodup_singleton _, ?_⟩
    intro a ha hb
    simp only [List.mem_singleton] at hb
    subst hb
    exact htn ha
  · intro t' ht'
    by_cases htt : t' = t
    · subst htt
      exact ⟨_, get_set_self hp, Or.inl rfl⟩
    · rcases List.mem_append.1 ht' with ht'' | ht''
      · obtain ⟨p', hp', hc'⟩ := hs.enqCell t' ht''
        exact ⟨p', by rw [get_set_other htt]; exact hp', hc'⟩
      · simp only [List.mem_singleton] at ht''
        exact absurd ht'' htt
  · intro hd
    rw [← List.append_assoc, hs.fifo hd]
  · exact hs.fifoD.trans ⟨[t], rfl⟩
  · intro t' p' hp'
    obtain ⟨p0, hp0, hst, hfn⟩ := hh.1 t' p' hp'
    rw [hst, hfn]
    exact hs.cells t' p0 hp0

theorem outcome_ne_pending (r : Except E V) : outcome r ≠ Handle.pending := by
  cases r <;> simp [outcome]

theorem hist_dtorMembers {s s' : ThreadPool V E} (hs : Hist s)
    (h : dtorMembers s = some s') : Hist s' := by
  obtain ⟨hd, hall, rfl⟩ := dtorMembers_some h
  refine ⟨hs.enqNodup, ?_, ?_, hs.fifoD, hs.held, hs.ran, hs.runNodup, hs.owner, ?_,
    hs.solo, hs.ok⟩
  · intro t ht
    obtain ⟨p, hp, hc⟩ := hs.enqCell t ht
    refine ⟨if t ∈ s.tasks_ then abandon p else p, by rw [destroyQueue_get, hp]; rfl, ?_⟩
    split
    · rw [abandon_call]; exact hc
    · exact hc
  · intro h'; exact absurd rfl h'
  · intro t p' hp'
    rw [destroyQueue_get] at hp'
    cases hget : s.heap[t]? with
    | none => rw [hget] at hp'; cases hp'
    | some p =>
      rw [hget] at hp'
      simp only [Option.map_some', Option.some.injEq] at hp'
      refine ⟨?_, fun _ h' => absurd rfl h', ?_⟩
      · intro hmem
        have hst := (hs.cells t p hget).1 hmem
        have hne : p.state ≠ Handle.pending := by
          rw [hst]; exact outcome_ne_pending _
        have : p' = p := by
          rw [← hp']
          split
          · exact abandon_state_of_ne hne
          · rfl
        rw [this]; exact hst
      · intro hn
        have hold := (hs.cells t p hget).2.2 hn
        rw [← hp']
        split
        · rcases hold with hold | hold
          · exact Or.inr (abandon_state_pending hold)
          · rw [abandon_state_of_ne (by rw [hold]; intro h'; cases h')]
            exact Or.inr hold
        · exact hold

theorem hist_step {n : Nat} {s s' : ThreadPool V E} {e : Event V E} (hy : Sync n s) (hs : Hist s)
    (h : step s e = some s') : Hist s' := by
  have hf := step_fault h
  unfold step at h
  simp only [hf, Option.isSome_none, Bool.false_eq_true, if_false] at h
  cases e with
  | lock i => exact hist_workerLock hs h
  | cond i => exact hist_workerCond hs h
  | wait i => exact hist_workerWait hs h
  | spurious i => exact hist_workerSpurious hs h
  | check i => exact hist_workerCheck hy hs h
  | finish i => exact hist_workerFinish hy hs h
  | add_task_begin fn => exact hist_add_task_begin hs h
  | add_task_lock t => exact hist_add_task_lock hs h
  | add_task_emplace t => exact hist_add_task_emplace hs h
  | add_task_notify t w => exact hist_add_task_notify hs h
  | dtorStore => exact hist_dtorStore hs h
  | dtorNotifyAll => exact hist_dtorNotifyAll hs h
  | dtorJoin => exact hist_dtorJoin hs h
  | dtorMembers => exact hist_dtorMembers hs h

/-- Both invariants hold along every schedule. -/
theorem exec_inv {n : Nat} (evs : List (Event V E)) {s s' : ThreadPool V E} (hy : Sync n s)
    (hs : Hist s) (h : exec s evs = some s') : Sync n s' ∧ Hist s' := by
  induction evs generalizing s with
  | nil =>
    simp only [exec, Option.some.injEq] at h
    subst h
    exact ⟨hy, hs⟩
  | cons e es ih =>
    simp only [exec] at h
    cases hstep : step s e with
    | none => rw [hstep] at h; cases h
    | some s1 =>
      rw [hstep] at h
      exact ih (sync_step hy hstep) (hist_step hy hs hstep) h

theorem reachable_inv {n : Nat} {s : ThreadPool V E} (h : Reachable n s) : Sync n s ∧ Hist s := by
  obtain ⟨evs, hevs⟩ := h
  exact exec_inv evs (sync_init n) (hist_init n) hevs

/-! ## Schedules -/

theorem exec_append (s : ThreadPool V E) (es fs : List (Event V E)) :
    exec s (es ++ fs) = (exec s es).bind (fun s' => exec s' fs) := by
  induction es generalizing s with
  | nil => rfl
  | cons e es ih =>
    simp only [List.cons_append, exec]
    cases step s e with
    | none => rfl
    | some s1 => exact ih s1

theorem reachable_step {n : Nat} {s s' : ThreadPool V E} {e : Event V E} (h : Reachable n s)
    (hs : step s e = some s') : Reachable n s' := by
  obtain ⟨evs, hevs⟩ := h
  refine ⟨evs ++ [e], ?_⟩
  rw [exec_append, hevs]
  simp [exec, hs]

theorem reachable_exec {n : Nat} {s s' : ThreadPool V E} {evs : List (Event V E)}
    (h : Reachable n s) (hs : exec s evs = some s') : Reachable n s' := by
  obtain ⟨pre, hpre⟩ := h
  refine ⟨pre ++ evs, ?_⟩
  rw [exec_append, hpre]
  exact hs

/-! ## Callables are never replaced -/

theorem set_keeps_fn {heap : List (Packaged V E)} {t0 : Nat} {p0 q : Packaged V E}
    (hp0 : heap[t0]? = some p0) (hq : q.fn = p0.fn) {t : Nat} {p : Packaged V E}
    (hp : heap[t]? = some p) : ∃ p', (heap.set t0 q)[t]? = some p' ∧ p'.fn = p.fn := by
  by_cases ht : t = t0
  · subst ht
    rw [hp0] at hp
    injection hp with hp
    subst hp
    exact ⟨q, get_set_self hp0, hq⟩
  · exact ⟨p, by rw [get_set_other ht]; exact hp, rfl⟩

theorem step_heap_fn {s s' : ThreadPool V E} {e : Event V E} (h : step s e = some s') {t : Nat}
    {p : Packaged V E} (hp : s.heap[t]? = some p) :
    ∃ p', s'.heap[t]? = some p' ∧ p'.fn = p.fn := by
  have hf := step_fault h
  unfold step at h
  simp only [hf, Option.isSome_none, Bool.false_eq_true, if_false] at h
  cases e with
  | lock i => obtain ⟨_, _, rfl⟩ := workerLock_some h; exact ⟨p, hp, rfl⟩
  | cond i =>
    obtain ⟨_, hc⟩ := workerCond_some h
    rcases hc with ⟨_, _, rfl⟩ | ⟨_, rfl⟩ <;> exact ⟨p, hp, rfl⟩
  | wait i => obtain ⟨_, rfl⟩ := workerWait_some h; exact ⟨p, hp, rfl⟩
  | spurious i => obtain ⟨_, rfl⟩ := workerSpurious_some h; exact ⟨p, hp, rfl⟩
  | check i =>
    obtain ⟨_, hc⟩ := workerCheck_some h
    rcases hc with ⟨_, rfl⟩ | ⟨_, _, rfl⟩ | ⟨_, _, _, _, rfl⟩ <;> exact ⟨p, hp, rfl⟩
  | finish i =>
    obtain ⟨t0, p0, _, hp0, hc⟩ := workerFinish_some h
    rcases hc with ⟨_, rfl⟩ | ⟨_, rfl⟩
    · exact set_keeps_fn hp0 (by rfl) hp
    · exact ⟨p, hp, rfl⟩
  | add_task_begin fn =>
    obtain ⟨_, rfl⟩ := add_task_begin_some h
    exact ⟨p, by simp only; rw [List.getElem?_append_left (lt_of_get hp)]; exact hp, rfl⟩
  | add_task_lock t0 =>
    obtain ⟨p0, hp0, _, _, rfl⟩ := add_task_lock_some h
    exact set_keeps_fn hp0 (by rfl) hp
  | add_task_emplace t0 =>
    obtain ⟨p0, hp0, _, rfl⟩ := add_task_emplace_some h
    exact set_keeps_fn hp0 (by rfl) hp
  | add_task_notify t0 w =>
    obtain ⟨p0, hp0, _, hc⟩ := add_task_notify_some h
    rcases hc with ⟨_, _, _, rfl⟩ | ⟨_, _, rfl⟩ <;> exact set_keeps_fn hp0 (by rfl) hp
  | dtorStore => obtain ⟨_, rfl⟩ := dtorStore_some h; exact ⟨p, hp, rfl⟩
  | dtorNotifyAll => obtain ⟨_, rfl⟩ := dtorNotifyAll_some h; exact ⟨p, hp, rfl⟩
  | dtorJoin => obtain ⟨_, _, _, rfl⟩ := dtorJoin_some h; exact ⟨p, hp, rfl⟩
  | dtorMembers =>
    obtain ⟨_, _, rfl⟩ := dtorMembers_some h
    refine ⟨if t ∈ s.tasks_ then abandon p else p, by simp only; rw [destroyQueue_get, hp]; rfl, ?_⟩
    split
    · exact abandon_fn p
    · rfl

theorem exec_heap_fn (evs : List (Event V E)) {s s' : ThreadPool V E} (h : exec s evs = some s')
    {t : Nat} {p : Packaged V E} (hp : s.heap[t]? = some p) :
    ∃ p', s'.heap[t]? = some p' ∧ p'.fn = p.fn := by
  induction evs generalizing s p with
  | nil =>
    simp only [exec, Option.some.injEq] at h
    subst h
    exact ⟨p, hp, rfl⟩
  | cons e es ih =>
    simp only [exec] at h
    cases hstep : step s e with
    | none => rw [hstep] at h; cases h
    | some s1 =>
      rw [hstep] at h
      obtain ⟨p1, hp1, hfn1⟩ := step_heap_fn hstep hp
      obtain ⟨p', hp', hfn'⟩ := ih h hp1
      exact ⟨p', hp', hfn'.trans hfn1⟩

/-- A handle that holds a value holds the value of its callable. -/
theorem ready_value {n : Nat} {s : ThreadPool V E} (h : Reachable n s) {t : Nat} {p : Packaged V E}
    (hp : s.heap[t]? = some p) {v : V} (hv : p.state = Handle.ready v) :
    p.fn () = Except.ok v := by
  have hc := (reachable_inv h).2.cells t p hp
  by_cases hm : t ∈ s.runLog.map Prod.snd
  · have := hc.1 hm
    rw [hv] at this
    cases hfn : p.fn () with
    | ok v' =>
      rw [hfn] at this
      simp only [outcome, Handle.ready.injEq] at this
      rw [this]
    | error e =>
      rw [hfn] at this
      simp [outcome] at this
  · rcases hc.2.2 hm with h' | h' <;> rw [hv] at h' <;> cases h'

theorem futureGet_ok {s : ThreadPool V E} {t : Nat} {v : V}
    (h : futureGet s t = some (Except.ok v)) :
    ∃ p, s.heap[t]? = some p ∧ p.state = Handle.ready v := by
  unfold futureGet handle at h
  cases hp : s.heap[t]? with
  | none => rw [hp] at h; simp at h
  | some p =>
    rw [hp] at h
    refine ⟨p, rfl, ?_⟩
    simp only [Option.map_some'] at h
    cases hst : p.state with
    | pending => rw [hst] at h; simp at h
    | ready v' => rw [hst] at h; simp at h; rw [h]
    | failed e => rw [hst] at h; simp at h

set_option maxRecDepth 100000 in
theorem main_run : exec (init 4) (mainSchedule 100) = some (mainState 100) := by rfl

set_option maxRecDepth 100000 in
theorem main_retrieved :
    retrieved (mainState 100) 100 = (List.range 100).map (fun i : Nat => some (Except.ok (i : Int))) := by
  rfl

theorem main_submitted : SubmittedMain (mainState 100) := by
  intro i hi
  refine ⟨{ fn := bind foo (i : Int), state := Handle.ready (i : Int), call := AddPc.returned }, ?_, rfl⟩
  simp [mainState, hi]

set_option maxRecDepth 100000 in
theorem range_sum : ((List.range 100).map (fun i : Nat => (i : Int))).sum = 4950 := by rfl

theorem main_sum_of_retrieved {s : ThreadPool Int Unit} (h : Reachable 4 s) (hsub : SubmittedMain s)
    (results : List Int)
    (hget : retrieved s 100 = results.map (fun r => some (Except.ok r))) :
    results.sum = 4950 := by
  have hlen : results.length = 100 := by
    have := congrArg List.length hget
    simpa [retrieved] using this.symm
  have hval : ∀ i (hi : i < results.length), results[i] = (i : Int) := by
    intro i hi
    have hi' : i < 100 := by omega
    have hidx := congrArg (fun l => l[i]?) hget
    simp only [retrieved, List.getElem?_map] at hidx
    rw [List.getElem?_range hi', List.getElem?_eq_getElem hi] at hidx
    simp only [Option.map_some', Option.some.injEq] at hidx
    obtain ⟨p, hp, hst⟩ := futureGet_ok hidx
    obtain ⟨p', hp', hfn⟩ := hsub i hi'
    rw [hp] at hp'
    injection hp' with hp'
    subst hp'
    have := ready_value h hp hst
    rw [hfn] at this
    simp only [bind, foo, Except.ok.injEq] at this
    exact this.symm
  have : results = (List.range 100).map (fun i : Nat => (i : Int)) := by
    apply List.ext_getElem
    · simp [hlen]
    · intro i h1 h2
      rw [hval i h1]
      simp
  rw [this]
  exact range_sum

/-- C1 (result correctness of `add_task`).  In a pool of any size `n` (a pool in which a
worker executes a task has at least one worker), let `add_task(f, a)` be called in a reachable
state `s`: the call creates packaged task `s.heap.length` from `f` bound to a copy of `a`.  In
every later state in which a worker `w` has executed that task, `get()` on the returned future
yields `f a`.  For example/test.cpp
(4 workers, task `i` returning `i` for `i = 0..99`): in every reachable state in which all
100 futures deliver a value the values sum to 4950, and such a state is reached. -/
theorem add_task_result {A : Type} (n : Nat) (f : A → V) (a : A)
    (s s' s'' : ThreadPool V E) (post : List (Event V E)) (w : Nat)
    (hs : Reachable n s)
    (hadd : step s (Event.add_task_begin (bind f a)) = some s')
    (hpost : exec s' post = some s'')
    (hexec : (w, s.heap.length) ∈ s''.runLog) :
    futureGet s'' s.heap.length = some (Except.ok (f a)) ∧
    (∀ (m : ThreadPool Int Unit) (results : List Int), Reachable 4 m → SubmittedMain m →
      retrieved m 100 = results.map (fun r => some (Except.ok r)) → results.sum = 4950) ∧
    (∃ m : ThreadPool Int Unit, Reachable 4 m ∧ SubmittedMain m ∧
      retrieved m 100 = (List.range 100).map (fun i : Nat => some (Except.ok (i : Int)))) := by
  refine ⟨?_, fun m results hm hsub hget => main_sum_of_retrieved hm hsub results hget,
    ⟨mainState 100, ⟨mainSchedule 100, main_run⟩, main_submitted, main_retrieved⟩⟩
  have hr' := reachable_step hs hadd
  have hr'' := reachable_exec hr' hpost
  have hf := step_fault hadd
  unfold step at hadd
  simp only [hf, Option.isSome_none, Bool.false_eq_true, if_false] at hadd
  obtain ⟨_, rfl⟩ := add_task_begin_some hadd
  obtain ⟨p, hp, hfn⟩ := exec_heap_fn post hpost (t := s.heap.length)
    (p := ⟨bind f a, Handle.pending, AddPc.created⟩) (by simp)
  have hst := ((reachable_inv hr'').2.cells _ p hp).1
    (List.mem_map.2 ⟨(w, s.heap.length), hexec, rfl⟩)
  rw [hfn] at hst
  simp only [futureGet, handle, hp, Option.map_some', hst, bind, outcome]

theorem singleton_of_length_one {α : Type} {l : List α} (h : l.length = 1) : ∃ a, l = [a] := by
  cases l with
  | nil => simp at h
  | cons a l =>
    cases l with
    | nil => exact ⟨a, rfl⟩
    | cons b l => simp at h

/-- C2 (FIFO dequeue).  In every reachable state the tasks dequeued so far, in dequeue order,
are an initial segment of the tasks in the order `add_task` enqueued them, and as long as the
pool (and with it the queue) exists, the dequeued tasks followed by the queue contents are
exactly the enqueued tasks.  With a single worker the tasks executed so far, in execution
order, are an initial segment of the dequeued, hence of the enqueued, sequence. -/
theorem fifo_dequeue (n : Nat) (s : ThreadPool V E) (h : Reachable n s) :
    (s.dtor ≠ DtorPc.destroyed → s.deqLog.map Prod.snd ++ s.tasks_ = s.enqLog) ∧
    s.deqLog.map Prod.snd <+: s.enqLog ∧
    (n = 1 → s.runLog.map Prod.snd <+: s.deqLog.map Prod.snd ∧
      s.runLog.map Prod.snd <+: s.enqLog) := by
  obtain ⟨hy, hh⟩ := reachable_inv h
  refine ⟨hh.fifo, hh.fifoD, ?_⟩
  intro hn
  obtain ⟨pc, hpc⟩ := singleton_of_length_one (hy.len.trans hn)
  have hsolo := hh.solo pc hpc
  have hpre : s.runLog.map Prod.snd <+: s.deqLog.map Prod.snd := ⟨heldBy pc, hsolo.symm⟩
  exact ⟨hpre, hpre.trans hh.fifoD⟩

/-- C3 (failure propagation).  Let worker `i` be executing task `t` in a reachable state and
let the callable of `t` throw `e`.  Then the end of the execution is enabled, it stores `e` in
the handle of `t` (so `get()` rethrows `e`), the worker is back before line 62 and no fault
occurred; and compared with the same step for a callable that returns any value `v`, the
queue, the workers, the mutex, the flag, the destructor and every other handle are equal. -/
theorem failure_propagation (n : Nat) (s : ThreadPool V E) (i t : Nat) (p : Packaged V E) (e : E)
    (h : Reachable n s) (hw : s.workers_[i]? = some (WorkerPc.running t))
    (hp : s.heap[t]? = some p) (hthrow : p.fn () = Except.error e) :
    ∃ s', step s (Event.finish i) = some s' ∧
      handle s' t = some (Handle.failed (Failure.raised e)) ∧
      futureGet s' t = some (Except.error (Failure.raised e)) ∧
      s'.workers_[i]? = some WorkerPc.lockWait ∧ s'.fault = none ∧
      ∀ v : V, ∃ r,
        step { s with heap := s.heap.set t { p with fn := fun _ => Except.ok v } }
          (Event.finish i) = some r ∧
        handle r t = some (Handle.ready v) ∧
        r.tasks_ = s'.tasks_ ∧ r.workers_ = s'.workers_ ∧ r.mutex_ = s'.mutex_ ∧
        r.running_ = s'.running_ ∧ r.dtor = s'.dtor ∧ r.fault = s'.fault ∧
        r.enqLog = s'.enqLog ∧ r.deqLog = s'.deqLog ∧ r.runLog = s'.runLog ∧
        ∀ t', t' ≠ t → handle r t' = handle s' t' := by
  obtain ⟨hy, hh⟩ := reachable_inv h
  have hnd := sync_alive_of_worker hy hw (by intro h'; cases h')
  have hst : p.state = Handle.pending := (hh.cells t p hp).2.1 (hh.held i t hw).2 hnd
  have hf := hh.ok
  have hlt := lt_of_get hp
  refine ⟨{ s with heap := s.heap.set t { p with state := outcome (p.fn ()) },
                   workers_ := s.workers_.set i WorkerPc.lockWait,
                   runLog := s.runLog ++ [(i, t)] }, ?_, ?_, ?_, ?_, hf, ?_⟩
  · simp [step, perform, hf, workerFinish, hw, hp, hst]
  · simp [handle, hlt, hthrow, outcome]
  · simp [futureGet, handle, hlt, hthrow, outcome]
  · exact get_set_self hw
  · intro v
    refine ⟨{ s with heap := (s.heap.set t { p with fn := fun _ => Except.ok v }).set t
                       { p with fn := fun _ => Except.ok v, state := Handle.ready v },
                     workers_ := s.workers_.set i WorkerPc.lockWait,
                     runLog := s.runLog ++ [(i, t)] }, ?_, ?_, rfl, rfl, rfl, rfl, rfl, rfl,
      rfl, rfl, rfl, ?_⟩
    · simp [step, perform, hf, workerFinish, hw, hlt, hst, outcome]
    · simp [handle, hlt]
    · intro t' ht'
      simp [handle, List.getElem?_set_ne (Ne.symm ht')]

/-- C7 (concurrency bound).  In every reachable state of a pool constructed with `n` workers,
whatever was submitted, at most `n` tasks are dequeued and not yet finished. -/
theorem concurrency_bound (n : Nat) (s : ThreadPool V E) (h : Reachable n s) :
    (executing s).length ≤ n := by
  obtain ⟨hy, hh⟩ := reachable_inv h
  have hdn : s.deqLog.Nodup := List.Nodup.of_map _ (hist_deqNodup hh)
  have hex : (executing s).Nodup := hdn.filter _
  have hown : ∀ p ∈ executing s, s.workers_[p.1]? = some (WorkerPc.running p.2) := by
    intro p hp
    unfold executing at hp
    obtain ⟨hp1, hp2⟩ := List.mem_filter.1 hp
    rcases hh.owner p.1 p.2 hp1 with ho | ho
    · exact ho
    · simp at hp2; exact absurd ho hp2
  have hfst : ((executing s).map Prod.fst).Nodup := by
    refine List.Nodup.map_on ?_ hex
    intro a ha b hb hab
    have h1 := hown a ha
    have h2 := hown b hb
    rw [hab, h2] at h1
    injection h1 with h1
    injection h1 with h1
    exact Prod.ext hab h1.symm
  have hsub : (executing s).map Prod.fst ⊆ List.range n := by
    intro i hi
    obtain ⟨p, hp, rfl⟩ := List.mem_map.1 hi
    have := lt_of_get (hown p hp)
    rw [hy.len] at this
    exact List.mem_range.2 this
  have := (List.subperm_of_subset hfst hsub).length_le
  simpa using this

/-! ## Which actions dequeue, change the flag, change the queue -/

theorem step_op {s s' : ThreadPool V E} {e : Event V E} (h : step s e = some s') :
    s.fault = none ∧ perform s e = some s' := by
  have hf := step_fault h
  unfold step at h
  simp only [hf, Option.isSome_none, Bool.false_eq_true, if_false] at h
  exact ⟨hf, h⟩

theorem step_dequeue {s s' : ThreadPool V E} {e : Event V E} (h : step s e = some s')
    (hd : s'.deqLog ≠ s.deqLog) :
    ∃ j t, e = Event.check j ∧ s.running_ = true ∧
      s.workers_[j]? = some WorkerPc.exitCheck ∧ s'.deqLog = s.deqLog ++ [(j, t)] ∧
      s'.workers_[j]? = some (WorkerPc.running t) := by
  obtain ⟨_, h⟩ := step_op h
  cases e with
  | lock i => obtain ⟨_, _, rfl⟩ := workerLock_some h; exact absurd rfl hd
  | cond i =>
    obtain ⟨_, hc⟩ := workerCond_some h
    rcases hc with ⟨_, _, rfl⟩ | ⟨_, rfl⟩ <;> exact absurd rfl hd
  | wait i => obtain ⟨_, rfl⟩ := workerWait_some h; exact absurd rfl hd
  | spurious i => obtain ⟨_, rfl⟩ := workerSpurious_some h; exact absurd rfl hd
  | check i =>
    obtain ⟨hpc, hc⟩ := workerCheck_some h
    rcases hc with ⟨_, rfl⟩ | ⟨_, _, rfl⟩ | ⟨hr, t, q, _, rfl⟩
    · exact absurd rfl hd
    · exact absurd rfl hd
    · exact ⟨i, t, rfl, hr, hpc, rfl, get_set_self hpc⟩
  | finish i =>
    obtain ⟨t0, p0, _, hp0, hc⟩ := workerFinish_some h
    rcases hc with ⟨_, rfl⟩ | ⟨_, rfl⟩ <;> exact absurd rfl hd
  | add_task_begin fn => obtain ⟨_, rfl⟩ := add_task_begin_some h; exact absurd rfl hd
  | add_task_lock t0 => obtain ⟨p0, hp0, _, _, rfl⟩ := add_task_lock_some h; exact absurd rfl hd
  | add_task_emplace t0 => obtain ⟨p0, hp0, _, rfl⟩ := add_task_emplace_some h; exact absurd rfl hd
  | add_task_notify t0 w =>
    obtain ⟨p0, hp0, _, hc⟩ := add_task_notify_some h
    rcases hc with ⟨_, _, _, rfl⟩ | ⟨_, _, rfl⟩ <;> exact absurd rfl hd
  | dtorStore => obtain ⟨_, rfl⟩ := dtorStore_some h; exact absurd rfl hd
  | dtorNotifyAll => obtain ⟨_, rfl⟩ := dtorNotifyAll_some h; exact absurd rfl hd
  | dtorJoin => obtain ⟨_, _, _, rfl⟩ := dtorJoin_some h; exact absurd rfl hd
  | dtorMembers => obtain ⟨_, _, rfl⟩ := dtorMembers_some h; exact absurd rfl hd

theorem set_running {l : List WorkerPc} {i j t : Nat} {b : WorkerPc}
    (h : (l.set i b)[j]? = some (WorkerPc.running t)) (hb : heldBy b = [])
    (hn : l[j]? ≠ some (WorkerPc.running t)) : False := by
  rcases get_set_some h with ⟨_, hx⟩ | ⟨_, hx⟩
  · rw [← hx] at hb
    simp [heldBy] at hb
  · exact hn hx

theorem step_take {s s' : ThreadPool V E} {e : Event V E} (h : step s e = some s') {j t : Nat}
    (h1 : s'.workers_[j]? = some (WorkerPc.running t))
    (h0 : s.workers_[j]? ≠ some (WorkerPc.running t)) :
    e = Event.check j ∧ s.running_ = true ∧ s.tasks_ = t :: s'.tasks_ := by
  obtain ⟨_, h⟩ := step_op h
  cases e with
  | lock i => obtain ⟨_, _, rfl⟩ := workerLock_some h; exact (set_running h1 rfl h0).elim
  | cond i =>
    obtain ⟨_, hc⟩ := workerCond_some h
    rcases hc with ⟨_, _, rfl⟩ | ⟨_, rfl⟩ <;> exact (set_running h1 rfl h0).elim
  | wait i => obtain ⟨_, rfl⟩ := workerWait_some h; exact (set_running h1 rfl h0).elim
  | spurious i => obtain ⟨_, rfl⟩ := workerSpurious_some h; exact (set_running h1 rfl h0).elim
  | check i =>
    obtain ⟨hpc, hc⟩ := workerCheck_some h
    rcases hc with ⟨_, rfl⟩ | ⟨_, _, rfl⟩ | ⟨hr, t', q, hq, rfl⟩
    · exact (set_running h1 rfl h0).elim
    · exact absurd h1 h0
    · rcases get_set_some h1 with ⟨rfl, hx⟩ | ⟨_, hx⟩
      · injection hx with hx
        subst hx
        exact ⟨rfl, hr, hq⟩
      · exact absurd hx h0
  | finish i =>
    obtain ⟨t0, p0, _, hp0, hc⟩ := workerFinish_some h
    rcases hc with ⟨_, rfl⟩ | ⟨_, rfl⟩
    · exact (set_running h1 rfl h0).elim
    · exact absurd h1 h0
  | add_task_begin fn => obtain ⟨_, rfl⟩ := add_task_begin_some h; exact absurd h1 h0
  | add_task_lock t0 => obtain ⟨p0, hp0, _, _, rfl⟩ := add_task_lock_some h; exact absurd h1 h0
  | add_task_emplace t0 => obtain ⟨p0, hp0, _, rfl⟩ := add_task_emplace_some h; exact absurd h1 h0
  | add_task_notify t0 w =>
    obtain ⟨p0, hp0, _, hc⟩ := add_task_notify_some h
    rcases hc with ⟨_, _, _, rfl⟩ | ⟨_, _, rfl⟩
    · exact (set_running h1 rfl h0).elim
    · exact absurd h1 h0
  | dtorStore => obtain ⟨_, rfl⟩ := dtorStore_some h; exact absurd h1 h0
  | dtorNotifyAll =>
    obtain ⟨_, rfl⟩ := dtorNotifyAll_some h
    obtain ⟨pc0, hpc0, hwk⟩ := get_map_wake h1
    rw [wake_running.1 hwk] at hpc0
    exact absurd hpc0 h0
  | dtorJoin => obtain ⟨_, _, _, rfl⟩ := dtorJoin_some h; exact absurd h1 h0
  | dtorMembers => obtain ⟨_, _, rfl⟩ := dtorMembers_some h; exact absurd h1 h0

theorem step_flag {s s' : ThreadPool V E} {e : Event V E} (h : step s e = some s')
    (hr : s.running_ = false) : s'.running_ = false := by
  obtain ⟨_, h⟩ := step_op h
  cases e with
  | lock i => obtain ⟨_, _, rfl⟩ := workerLock_some h; exact hr
  | cond i =>
    obtain ⟨_, hc⟩ := workerCond_some h
    rcases hc with ⟨_, _, rfl⟩ | ⟨_, rfl⟩ <;> exact hr
  | wait i => obtain ⟨_, rfl⟩ := workerWait_some h; exact hr
  | spurious i => obtain ⟨_, rfl⟩ := workerSpurious_some h; exact hr
  | check i =>
    obtain ⟨hpc, hc⟩ := workerCheck_some h
    rcases hc with ⟨_, rfl⟩ | ⟨_, _, rfl⟩ | ⟨_, _, _, _, rfl⟩ <;> exact hr
  | finish i =>
    obtain ⟨t0, p0, _, hp0, hc⟩ := workerFinish_some h
    rcases hc with ⟨_, rfl⟩ | ⟨_, rfl⟩ <;> exact hr
  | add_task_begin fn => obtain ⟨_, rfl⟩ := add_task_begin_some h; exact hr
  | add_task_lock t0 => obtain ⟨p0, hp0, _, _, rfl⟩ := add_task_lock_some h; exact hr
  | add_task_emplace t0 => obtain ⟨p0, hp0, _, rfl⟩ := add_task_emplace_some h; exact hr
  | add_task_notify t0 w =>
    obtain ⟨p0, hp0, _, hc⟩ := add_task_notify_some h
    rcases hc with ⟨_, _, _, rfl⟩ | ⟨_, _, rfl⟩ <;> exact hr
  | dtorStore => obtain ⟨_, rfl⟩ := dtorStore_some h; rfl
  | dtorNotifyAll => obtain ⟨_, rfl⟩ := dtorNotifyAll_some h; exact hr
  | dtorJoin => obtain ⟨_, _, _, rfl⟩ := dtorJoin_some h; exact hr
  | dtorMembers => obtain ⟨_, _, rfl⟩ := dtorMembers_some h; exact hr

theorem step_queue_locked {n : Nat} {s s' : ThreadPool V E} {e : Event V E} (hy : Sync n s)
    (h : step s e = some s') {i : Nat} {pc : WorkerPc} (hpc : s.workers_[i]? = some pc)
    (hl : holdsLock pc = true) (he : e ≠ Event.check i) : s'.tasks_ = s.tasks_ := by
  obtain ⟨_, h⟩ := step_op h
  have hm := hy.wlock i pc hpc hl
  cases e with
  | lock i => obtain ⟨_, _, rfl⟩ := workerLock_some h; rfl
  | cond i =>
    obtain ⟨_, hc⟩ := workerCond_some h
    rcases hc with ⟨_, _, rfl⟩ | ⟨_, rfl⟩ <;> rfl
  | wait i => obtain ⟨_, rfl⟩ := workerWait_some h; rfl
  | spurious i => obtain ⟨_, rfl⟩ := workerSpurious_some h; rfl
  | check j =>
    obtain ⟨hpj, hc⟩ := workerCheck_some h
    have := sync_excl hy hpc hl hpj rfl
    subst this
    exact absurd rfl he
  | finish i =>
    obtain ⟨t0, p0, _, hp0, hc⟩ := workerFinish_some h
    rcases hc with ⟨_, rfl⟩ | ⟨_, rfl⟩ <;> rfl
  | add_task_begin fn => obtain ⟨_, rfl⟩ := add_task_begin_some h; rfl
  | add_task_lock t0 => obtain ⟨p0, hp0, _, _, rfl⟩ := add_task_lock_some h; rfl
  | add_task_emplace t0 =>
    obtain ⟨p0, hp0, hc0, rfl⟩ := add_task_emplace_some h
    have := hy.clock t0 p0 hp0 hc0
    rw [hm] at this
    cases this
  | add_task_notify t0 w =>
    obtain ⟨p0, hp0, _, hc⟩ := add_task_notify_some h
    rcases hc with ⟨_, _, _, rfl⟩ | ⟨_, _, rfl⟩ <;> rfl
  | dtorStore => obtain ⟨_, rfl⟩ := dtorStore_some h; rfl
  | dtorNotifyAll => obtain ⟨_, rfl⟩ := dtorNotifyAll_some h; rfl
  | dtorJoin => obtain ⟨_, _, _, rfl⟩ := dtorJoin_some h; rfl
  | dtorMembers =>
    obtain ⟨hd, _, rfl⟩ := dtorMembers_some h
    have hterm := (hy.joined _ hd).2 i (lt_of_get hpc)
    rw [hpc] at hterm
    injection hterm with hterm
    subst hterm
    cases hl

/-- C9 (no drain on shutdown).  When a worker at the check of line 66 reads the flag as false,
the check is enabled and the worker terminates and releases the mutex while queue, handles and
logs stay as they are, whatever the queue holds.  Conversely, an action that records a dequeue,
or after which a worker holds a task it did not hold before, is the check of that worker made
in a state whose flag is true, and the task is the front of the queue. -/
theorem no_drain_on_shutdown (s : ThreadPool V E) (i : Nat) (hf : s.fault = none)
    (hpc : s.workers_[i]? = some WorkerPc.exitCheck) (hr : s.running_ = false) :
    (∃ s', step s (Event.check i) = some s' ∧
      s'.workers_[i]? = some WorkerPc.terminated ∧ s'.tasks_ = s.tasks_ ∧
      s'.heap = s.heap ∧ s'.deqLog = s.deqLog ∧ s'.runLog = s.runLog ∧
      s'.mutex_ = none ∧ s'.fault = none) ∧
    (∀ (s0 s1 : ThreadPool V E) (e : Event V E), step s0 e = some s1 → s1.deqLog ≠ s0.deqLog →
      ∃ j t, e = Event.check j ∧ s0.running_ = true ∧
        s0.workers_[j]? = some WorkerPc.exitCheck ∧ s1.deqLog = s0.deqLog ++ [(j, t)] ∧
        s1.workers_[j]? = some (WorkerPc.running t)) ∧
    (∀ (s0 s1 : ThreadPool V E) (e : Event V E) (j t : Nat), step s0 e = some s1 →
      s1.workers_[j]? = some (WorkerPc.running t) →
      s0.workers_[j]? ≠ some (WorkerPc.running t) →
      e = Event.check j ∧ s0.running_ = true ∧ s0.tasks_ = t :: s1.tasks_) := by
  refine ⟨⟨{ s with workers_ := s.workers_.set i WorkerPc.terminated, mutex_ := none }, ?_,
    get_set_self hpc, rfl, rfl, rfl, rfl, rfl, hf⟩,
    fun s0 s1 e h hd => step_dequeue h hd, fun s0 s1 e j t h h1 h0 => step_take h h1 h0⟩
  simp [step, perform, hf, workerCheck, hpc, hr]

/-- C10 (dequeue safety).  In every reachable state: the fault of calling `front()` on an
empty queue has not occurred; a worker at line 66 that would read the flag as true finds the
queue non-empty, so its check leaves no fault; the loop of line 63 is left only in a state
whose flag is false or whose queue is non-empty; no action sets a false flag back to true;
and while a worker owns the mutex, no action but its own check changes the queue. -/
theorem dequeue_safety (n : Nat) (s : ThreadPool V E) (h : Reachable n s) :
    s.fault ≠ some Fault.frontOnEmpty ∧
    (∀ i : Nat, s.workers_[i]? = some WorkerPc.exitCheck → s.running_ = true → s.tasks_ ≠ []) ∧
    (∀ (i : Nat) (s' : ThreadPool V E), step s (Event.check i) = some s' → s'.fault = none) ∧
    (∀ (i : Nat) (s' : ThreadPool V E), step s (Event.cond i) = some s' →
      s'.workers_[i]? = some WorkerPc.exitCheck → s.running_ = false ∨ s.tasks_ ≠ []) ∧
    (∀ (e : Event V E) (s' : ThreadPool V E), step s e = some s' → s.running_ = false →
      s'.running_ = false) ∧
    (∀ (i : Nat) (pc : WorkerPc) (e : Event V E) (s' : ThreadPool V E),
      s.workers_[i]? = some pc → holdsLock pc = true → step s e = some s' →
      e ≠ Event.check i → s'.tasks_ = s.tasks_) := by
  obtain ⟨hy, hh⟩ := reachable_inv h
  refine ⟨hy.noFront, hy.front, ?_, ?_, fun e s' hs hr => step_flag hs hr,
    fun i pc e s' hpc hl hs he => step_queue_locked hy hs hpc hl he⟩
  · intro i s' hs
    exact (reachable_inv (reachable_step h hs)).2.ok
  · intro i s' hs hex
    obtain ⟨_, hs⟩ := step_op hs
    obtain ⟨hpc, hc⟩ := workerCond_some hs
    rcases hc with ⟨_, _, rfl⟩ | ⟨hc, rfl⟩
    · rw [get_set_self hpc] at hex
      cases hex
    · exact hc

/-! ## The mutex and the accesses to the shared variables -/

theorem owner_step {s s' : ThreadPool V E} {e : Event V E} (h : step s e = some s')
    (ha : actor s e = Thread.owner) :
    s'.mutex_ = s.mutex_ ∧
    ∀ m : Option Thread, step { s with mutex_ := m } e = some { s' with mutex_ := m } := by
  obtain ⟨hf, h⟩ := step_op h
  cases e with
  | dtorStore =>
    obtain ⟨hd, rfl⟩ := dtorStore_some h
    exact ⟨rfl, fun m => by simp [step, perform, dtorStore, hf, hd]⟩
  | dtorNotifyAll =>
    obtain ⟨hd, rfl⟩ := dtorNotifyAll_some h
    exact ⟨rfl, fun m => by simp [step, perform, dtorNotifyAll, hf, hd]⟩
  | dtorJoin =>
    obtain ⟨i, hd, hw, rfl⟩ := dtorJoin_some h
    exact ⟨rfl, fun m => by simp [step, perform, dtorJoin, hf, hd, hw]⟩
  | dtorMembers =>
    obtain ⟨hd, hall, rfl⟩ := dtorMembers_some h
    exact ⟨rfl, fun m => by simp [step, perform, dtorMembers, hf, hd]; exact hall⟩
  | _ => cases ha

/-- Lock discipline of the worker loop and of `add_task`.  In every reachable state an action
of a worker or of a caller of `add_task` that reads or writes `tasks_` or `running_` is
performed while that thread owns `mutex_`.  The actions of the destructor neither depend on
the mutex nor change it. -/
theorem critical_section (n : Nat) (s s' : ThreadPool V E) (e : Event V E) (h : Reachable n s)
    (hstep : step s e = some s') :
    (actor s e ≠ Thread.owner → accesses e ≠ [] → s.mutex_ = some (actor s e)) ∧
    (actor s e = Thread.owner → s'.mutex_ = s.mutex_ ∧
      ∀ m : Option Thread, step { s with mutex_ := m } e = some { s' with mutex_ := m }) := by
  refine ⟨?_, owner_step hstep⟩
  obtain ⟨hy, _⟩ := reachable_inv h
  obtain ⟨_, hop⟩ := step_op hstep
  intro hact hacc
  cases e with
  | cond i =>
    obtain ⟨hpc, _⟩ := workerCond_some hop
    exact hy.wlock i _ hpc rfl
  | check i =>
    obtain ⟨hpc, _⟩ := workerCheck_some hop
    exact hy.wlock i _ hpc rfl
  | add_task_emplace t =>
    obtain ⟨p, hp, hc, _⟩ := add_task_emplace_some hop
    exact hy.clock t p hp hc
  | dtorStore => exact absurd rfl hact
  | dtorMembers => exact absurd rfl hact
  | _ => exact absurd rfl hacc

/-- C8 fails on the code (the flag is written outside the critical section).  In the
reachable state `lockedState` worker 0 of a one-worker pool owns `mutex_` (line 62 done).  The
destructor's write `running_ = false` of line 81 is enabled there, it is an access to the
flag, it is made by the destroying thread, which does not own the mutex, and it changes the
flag.  So not every access to the flag is made under the mutex. -/
theorem shutdown_store_unlocked :
    Reachable 1 lockedState ∧
    lockedState.mutex_ = some (Thread.worker 0) ∧
    lockedState.running_ = true ∧
    (step lockedState Event.dtorStore).map (fun s => (s.running_, s.mutex_)) =
      some (false, some (Thread.worker 0)) ∧
    accesses (Event.dtorStore : Event Int Unit) = [Var.flag] ∧
    actor lockedState (Event.dtorStore : Event Int Unit) = Thread.owner ∧
    ¬ (∀ (s s' : ThreadPool Int Unit) (e : Event Int Unit), Reachable 1 s →
        step s e = some s' → accesses e ≠ [] → s.mutex_ = some (actor s e)) := by
  refine ⟨⟨[Event.lock 0], rfl⟩, rfl, rfl, rfl, rfl, rfl, ?_⟩
  intro H
  have h := H lockedState { lockedState with running_ := false, dtor := DtorPc.notifyAll }
    Event.dtorStore ⟨[Event.lock 0], rfl⟩ rfl (by decide)
  simp [lockedState, actor] at h

/-! ## Shutdown -/

theorem stuck_worker {s : ThreadPool V E} (hw : s.workers_ = [WorkerPc.waiting]) {i : Nat}
    {pc : WorkerPc} (h : s.workers_[i]? = some pc) : i = 0 ∧ pc = WorkerPc.waiting := by
  have hlt := lt_of_get h
  rw [hw] at h hlt
  simp only [List.length_singleton] at hlt
  have hi : i = 0 := by omega
  subst hi
  simp at h
  exact ⟨rfl, h.symm⟩

theorem stuck_heap {s : ThreadPool V E} (hh : s.heap = []) {t : Nat} {p : Packaged V E}
    (h : s.heap[t]? = some p) : False := by
  rw [hh] at h
  simp at h

/-- A pool whose only worker is blocked in `wait`, with no `add_task` call in progress and the
destructor in `join`, can only be moved by a new call of `add_task` or a spurious wake-up. -/
theorem stuck_step {s s' : ThreadPool V E} {e : Event V E} (hw : s.workers_ = [WorkerPc.waiting])
    (hh : s.heap = []) (hd : s.dtor = DtorPc.joining 0) (h : step s e = some s') :
    (∃ fn, e = Event.add_task_begin fn) ∨ e = Event.spurious 0 := by
  obtain ⟨_, h⟩ := step_op h
  cases e with
  | lock i =>
    obtain ⟨hpc, _, _⟩ := workerLock_some h
    rcases hpc with hpc | hpc <;> · have := (stuck_worker hw hpc).2; cases this
  | cond i =>
    obtain ⟨hpc, _⟩ := workerCond_some h
    have := (stuck_worker hw hpc).2; cases this
  | wait i =>
    obtain ⟨hpc, _⟩ := workerWait_some h
    have := (stuck_worker hw hpc).2; cases this
  | spurious i =>
    obtain ⟨hpc, _⟩ := workerSpurious_some h
    rw [(stuck_worker hw hpc).1]
    exact Or.inr rfl
  | check i =>
    obtain ⟨hpc, _⟩ := workerCheck_some h
    have := (stuck_worker hw hpc).2; cases this
  | finish i =>
    obtain ⟨t0, p0, hpc, _, _⟩ := workerFinish_some h
    have := (stuck_worker hw hpc).2; cases this
  | add_task_begin fn => exact Or.inl ⟨fn, rfl⟩
  | add_task_lock t0 => obtain ⟨p0, hp0, _⟩ := add_task_lock_some h; exact (stuck_heap hh hp0).elim
  | add_task_emplace t0 => obtain ⟨p0, hp0, _⟩ := add_task_emplace_some h; exact (stuck_heap hh hp0).elim
  | add_task_notify t0 w => obtain ⟨p0, hp0, _⟩ := add_task_notify_some h; exact (stuck_heap hh hp0).elim
  | dtorStore => obtain ⟨hd', _⟩ := dtorStore_some h; rw [hd] at hd'; cases hd'
  | dtorNotifyAll => obtain ⟨hd', _⟩ := dtorNotifyAll_some h; rw [hd] at hd'; cases hd'
  | dtorJoin =>
    obtain ⟨i, hd', hw', _⟩ := dtorJoin_some h
    have := (stuck_worker hw hw').2; cases this
  | dtorMembers =>
    obtain ⟨hd', _⟩ := dtorMembers_some h
    rw [hd, hw] at hd'
    simp at hd'

/-- C5 fails on the code (lost wake-up).  In a one-worker pool the schedule `lostWakeup` is
executable: the worker evaluates the condition of line 63 while the flag is true, the
destructor then stores `false` (line 81) and broadcasts (line 82) while no thread is blocked,
and the worker then blocks in `wait` (line 64).  In the state reached the destructor is in
`join` of worker 0, worker 0 is blocked on the condition variable with the flag already false,
and no action of the destructor, of the worker or of a pending `add_task` call is enabled:
only a new call of `add_task` or a spurious wake-up can ever change the state, so the
destructor does not return. -/
theorem shutdown_lost_wakeup :
    exec (init 1) lostWakeup = some lostWakeupState ∧
    lostWakeupState.dtor = DtorPc.joining 0 ∧
    lostWakeupState.workers_ = [WorkerPc.waiting] ∧
    lostWakeupState.running_ = false ∧
    (∀ (e : Event Int Unit) (s' : ThreadPool Int Unit), step lostWakeupState e = some s' →
      (∃ fn, e = Event.add_task_begin fn) ∨ e = Event.spurious 0) ∧
    (∀ (evs : List (Event Int Unit)) (s' : ThreadPool Int Unit),
      (∀ e ∈ evs, (∀ fn, e ≠ Event.add_task_begin fn) ∧ e ≠ Event.spurious 0) →
      exec lostWakeupState evs = some s' → s' = lostWakeupState) := by
  refine ⟨rfl, rfl, rfl, rfl, fun e s' h => stuck_step rfl rfl rfl h, ?_⟩
  intro evs s' hev hex
  cases evs with
  | nil =>
    simp only [exec, Option.some.injEq] at hex
    exact hex.symm
  | cons e es =>
    simp only [exec] at hex
    cases hstep : step lostWakeupState e with
    | none => rw [hstep] at hex; cases hex
    | some s1 =>
      have hne := hev e (List.mem_cons_self _ _)
      rcases stuck_step rfl rfl rfl hstep with ⟨fn, rfl⟩ | rfl
      · exact absurd rfl (hne.1 fn)
      · exact absurd rfl hne.2

/-! ## Abandoned tasks -/

theorem state_set_call {heap : List (Packaged V E)} {t0 : Nat} {p0 q : Packaged V E}
    (hp0 : heap[t0]? = some p0) (hq : q.state = p0.state) (t : Nat) :
    ((heap.set t0 q)[t]?).map (fun p => p.state) = (heap[t]?).map (fun p => p.state) := by
  by_cases ht : t = t0
  · subst ht
    rw [get_set_self hp0, hp0]
    simp [hq]
  · rw [get_set_other ht]

theorem state_append {heap l : List (Packaged V E)} {t : Nat} {r : Handle V E}
    (h : (heap[t]?).map (fun p => p.state) = some r) :
    ((heap ++ l)[t]?).map (fun p => p.state) = some r := by
  cases hp : heap[t]? with
  | none => rw [hp] at h; cases h
  | some p =>
    rw [List.getElem?_append_left (lt_of_get hp), hp]
    rw [hp] at h
    exact h

theorem abandoned_step {t : Nat} {s s' : ThreadPool V E} {e : Event V E} (hk : Abandoned t s)
    (h : step s e = some s') : Abandoned t s' := by
  obtain ⟨_, h⟩ := step_op h
  obtain ⟨hterm, hcase⟩ := hk
  have hno : ∀ {i : Nat} {pc : WorkerPc}, s.workers_[i]? = some pc →
      pc ≠ WorkerPc.terminated → False := fun hpc hne => hne (hterm _ (mem_of_get hpc))
  cases e with
  | lock i =>
    obtain ⟨hpc, _, _⟩ := workerLock_some h
    rcases hpc with hpc | hpc <;> exact (hno hpc (by intro h'; cases h')).elim
  | cond i =>
    obtain ⟨hpc, _⟩ := workerCond_some h
    exact (hno hpc (by intro h'; cases h')).elim
  | wait i =>
    obtain ⟨hpc, _⟩ := workerWait_some h
    exact (hno hpc (by intro h'; cases h')).elim
  | spurious i =>
    obtain ⟨hpc, _⟩ := workerSpurious_some h
    exact (hno hpc (by intro h'; cases h')).elim
  | check i =>
    obtain ⟨hpc, _⟩ := workerCheck_some h
    exact (hno hpc (by intro h'; cases h')).elim
  | finish i =>
    obtain ⟨t0, p0, hpc, _, _⟩ := workerFinish_some h
    exact (hno hpc (by intro h'; cases h')).elim
  | add_task_begin fn =>
    obtain ⟨_, rfl⟩ := add_task_begin_some h
    refine ⟨hterm, ?_⟩
    rcases hcase with ⟨h1, h2, h3⟩ | ⟨h1, h3⟩
    · exact Or.inl ⟨h1, h2, state_append h3⟩
    · exact Or.inr ⟨h1, state_append h3⟩
  | add_task_lock t0 =>
    obtain ⟨p0, hp0, _, _, rfl⟩ := add_task_lock_some h
    refine ⟨hterm, ?_⟩
    have hh := state_set_call (q := { p0 with call := AddPc.locked }) hp0 rfl t
    rcases hcase with ⟨h1, h2, h3⟩ | ⟨h1, h3⟩
    · exact Or.inl ⟨h1, h2, hh.trans h3⟩
    · exact Or.inr ⟨h1, hh.trans h3⟩
  | add_task_emplace t0 =>
    obtain ⟨p0, hp0, _, rfl⟩ := add_task_emplace_some h
    refine ⟨hterm, ?_⟩
    have hh := state_set_call (q := { p0 with call := AddPc.enqueued }) hp0 rfl t
    rcases hcase with ⟨h1, h2, h3⟩ | ⟨h1, h3⟩
    · exact Or.inl ⟨h1, List.mem_append_left _ h2, hh.trans h3⟩
    · exact Or.inr ⟨h1, hh.trans h3⟩
  | add_task_notify t0 w =>
    obtain ⟨p0, hp0, _, hc⟩ := add_task_notify_some h
    rcases hc with ⟨i, _, hpc, _⟩ | ⟨_, _, rfl⟩
    · exact (hno hpc (by intro h'; cases h')).elim
    · refine ⟨hterm, ?_⟩
      have hh := state_set_call (q := { p0 with call := AddPc.returned }) hp0 rfl t
      rcases hcase with ⟨h1, h2, h3⟩ | ⟨h1, h3⟩
      · exact Or.inl ⟨h1, h2, hh.trans h3⟩
      · exact Or.inr ⟨h1, hh.trans h3⟩
  | dtorStore =>
    obtain ⟨hd, rfl⟩ := dtorStore_some h
    refine ⟨hterm, ?_⟩
    rcases hcase with ⟨h1, h2, h3⟩ | ⟨h1, h3⟩
    · exact Or.inl ⟨(by intro h'; cases h'), h2, h3⟩
    · rw [hd] at h1; cases h1
  | dtorNotifyAll =>
    obtain ⟨hd, rfl⟩ := dtorNotifyAll_some h
    refine ⟨?_, ?_⟩
    · intro pc hpc
      obtain ⟨pc0, hpc0, rfl⟩ := List.mem_map.1 hpc
      rw [hterm pc0 hpc0]
      rfl
    · rcases hcase with ⟨h1, h2, h3⟩ | ⟨h1, h3⟩
      · exact Or.inl ⟨(by intro h'; cases h'), h2, h3⟩
      · rw [hd] at h1; cases h1
  | dtorJoin =>
    obtain ⟨i, hd, _, rfl⟩ := dtorJoin_some h
    refine ⟨hterm, ?_⟩
    rcases hcase with ⟨h1, h2, h3⟩ | ⟨h1, h3⟩
    · exact Or.inl ⟨(by intro h'; cases h'), h2, h3⟩
    · rw [hd] at h1; cases h1
  | dtorMembers =>
    obtain ⟨hd, _, rfl⟩ := dtorMembers_some h
    refine ⟨hterm, ?_⟩
    rcases hcase with ⟨h1, h2, h3⟩ | ⟨h1, h3⟩
    · refine Or.inr ⟨rfl, ?_⟩
      unfold handle at h3 ⊢
      simp only
      rw [destroyQueue_get]
      cases hp : s.heap[t]? with
      | none => rw [hp] at h3; cases h3
      | some p =>
        rw [hp] at h3
        simp only [Option.map_some', Option.some.injEq] at h3
        simp [h2, abandon_state_pending h3]
    · rw [hd] at h1; cases h1

theorem abandoned_exec {t : Nat} (evs : List (Event V E)) {s s' : ThreadPool V E}
    (hk : Abandoned t s) (h : exec s evs = some s') : Abandoned t s' := by
  induction evs generalizing s with
  | nil =>
    simp only [exec, Option.some.injEq] at h
    subst h
    exact hk
  | cons e es ih =>
    simp only [exec] at h
    cases hstep : step s e with
    | none => rw [hstep] at h; cases h
    | some s1 =>
      rw [hstep] at h
      exact ih (abandoned_step hk hstep) h

theorem abandoned_of_queued {n : Nat} {s : ThreadPool V E} {t : Nat} (h : Reachable n s)
    (ht : t ∈ s.tasks_) (hw : ∀ pc ∈ s.workers_, pc = WorkerPc.terminated) : Abandoned t s := by
  obtain ⟨hy, hh⟩ := reachable_inv h
  have hnd : s.dtor ≠ DtorPc.destroyed := by
    intro hd
    rw [(hy.dead hd).2.1] at ht
    cases ht
  have hfifo := hh.fifo hnd
  have hmem : t ∈ s.enqLog := by
    rw [← hfifo]
    exact List.mem_append_right _ ht
  obtain ⟨p, hp, _⟩ := hh.enqCell t hmem
  have hnr : t ∉ s.runLog.map Prod.snd := by
    intro hr
    obtain ⟨⟨w, t'⟩, hw', rfl⟩ := List.mem_map.1 hr
    have hd : t' ∈ s.deqLog.map Prod.snd := List.mem_map.2 ⟨(w, t'), hh.ran _ hw', rfl⟩
    have hnodup := hh.enqNodup
    rw [← hfifo] at hnodup
    exact List.disjoint_of_nodup_append hnodup hd ht
  refine ⟨hw, Or.inl ⟨hnd, ht, ?_⟩⟩
  simp [handle, hp, (hh.cells t p hp).2.1 hnr hnd]

/-- C4, as amended (abandoned queue).  Let task `t` be in the queue in a reachable state in
which every worker has exited.  In every later state in which the pool still exists (the
destructor's joins included) the handle of `t` is pending and `get()` blocks; once the pool
has been destroyed the handle is failed with `broken_promise`, which `get()` rethrows.  The
handle never holds a value or an exception of the callable. -/
theorem abandoned_task (n : Nat) (s s' : ThreadPool V E) (t : Nat) (evs : List (Event V E))
    (h : Reachable n s) (ht : t ∈ s.tasks_)
    (hw : ∀ pc ∈ s.workers_, pc = WorkerPc.terminated) (hrun : exec s evs = some s') :
    (s'.dtor ≠ DtorPc.destroyed →
      handle s' t = some Handle.pending ∧ futureGet s' t = none) ∧
    (s'.dtor = DtorPc.destroyed →
      handle s' t = some (Handle.failed Failure.brokenPromise) ∧
      futureGet s' t = some (Except.error Failure.brokenPromise)) ∧
    (∀ v : V, handle s' t ≠ some (Handle.ready v)) ∧
    (∀ e : E, handle s' t ≠ some (Handle.failed (Failure.raised e))) := by
  obtain ⟨_, hcase⟩ := abandoned_exec evs (abandoned_of_queued h ht hw) hrun
  rcases hcase with ⟨h1, _, h3⟩ | ⟨h1, h3⟩
  · refine ⟨fun _ => ⟨h3, by simp [futureGet, h3]⟩, fun hd => absurd hd h1, ?_, ?_⟩
    · intro v hv; rw [h3] at hv; cases hv
    · intro e he; rw [h3] at he; cases he
  · refine ⟨fun hd => absurd h1 hd, fun _ => ⟨h3, by simp [futureGet, h3]⟩, ?_, ?_⟩
    · intro v hv; rw [h3] at hv; cases hv
    · intro e he; rw [h3] at he; cases he

/-- C4 as stated fails: in a one-worker pool the task queued by `abandonSchedule` is still in
the queue when the destructor has begun and the worker has exited, yet after the join and the
destruction of the members its handle is not pending. -/
theorem abandoned_task_counterexample :
    ¬ (∀ (s s' : ThreadPool Int Unit) (t : Nat) (evs : List (Event Int Unit)), Reachable 1 s →
        t ∈ s.tasks_ → s.dtor ≠ DtorPc.alive →
        (∀ pc ∈ s.workers_, pc = WorkerPc.terminated) → exec s evs = some s' →
        handle s' t = some Handle.pending) := by
  intro H
  have h := H abandonState abandonFinal 0 abandonRest ⟨abandonSchedule, rfl⟩
    (by simp [abandonState]) (by simp [abandonState]) (by simp [abandonState]) rfl
  simp [handle, abandonFinal] at h

/-! ## Exactly-once execution -/

/-- A handle that has been written is not changed by any action. -/
theorem handle_stable {s s' : ThreadPool V E} {e : Event V E} (h : step s e = some s')
    {t : Nat} {r : Handle V E} (hr : handle s t = some r) (hne : r ≠ Handle.pending) :
    handle s' t = some r := by
  obtain ⟨_, h⟩ := step_op h
  cases e with
  | lock i => obtain ⟨_, _, rfl⟩ := workerLock_some h; exact hr
  | cond i =>
    obtain ⟨_, hc⟩ := workerCond_some h
    rcases hc with ⟨_, _, rfl⟩ | ⟨_, rfl⟩ <;> exact hr
  | wait i => obtain ⟨_, rfl⟩ := workerWait_some h; exact hr
  | spurious i => obtain ⟨_, rfl⟩ := workerSpurious_some h; exact hr
  | check i =>
    obtain ⟨_, hc⟩ := workerCheck_some h
    rcases hc with ⟨_, rfl⟩ | ⟨_, _, rfl⟩ | ⟨_, _, _, _, rfl⟩ <;> exact hr
  | finish i =>
    obtain ⟨t0, p0, _, hp0, hc⟩ := workerFinish_some h
    rcases hc with ⟨hst, rfl⟩ | ⟨_, rfl⟩
    · by_cases ht : t = t0
      · subst ht
        unfold handle at hr
        rw [hp0] at hr
        simp only [Option.map_some', Option.some.injEq] at hr
        exact absurd (hr.symm.trans hst) hne
      · unfold handle at hr ⊢
        simp only
        rw [get_set_other ht]
        exact hr
    · exact hr
  | add_task_begin fn => obtain ⟨_, rfl⟩ := add_task_begin_some h; exact state_append hr
  | add_task_lock t0 =>
    obtain ⟨p0, hp0, _, _, rfl⟩ := add_task_lock_some h
    exact (state_set_call (q := { p0 with call := AddPc.locked }) hp0 rfl t).trans hr
  | add_task_emplace t0 =>
    obtain ⟨p0, hp0, _, rfl⟩ := add_task_emplace_some h
    exact (state_set_call (q := { p0 with call := AddPc.enqueued }) hp0 rfl t).trans hr
  | add_task_notify t0 w =>
    obtain ⟨p0, hp0, _, hc⟩ := add_task_notify_some h
    rcases hc with ⟨_, _, _, rfl⟩ | ⟨_, _, rfl⟩ <;>
      exact (state_set_call (q := { p0 with call := AddPc.returned }) hp0 rfl t).trans hr
  | dtorStore => obtain ⟨_, rfl⟩ := dtorStore_some h; exact hr
  | dtorNotifyAll => obtain ⟨_, rfl⟩ := dtorNotifyAll_some h; exact hr
  | dtorJoin => obtain ⟨_, _, _, rfl⟩ := dtorJoin_some h; exact hr
  | dtorMembers =>
    obtain ⟨_, _, rfl⟩ := dtorMembers_some h
    unfold handle at hr ⊢
    simp only
    rw [destroyQueue_get]
    cases hp : s.heap[t]? with
    | none => rw [hp] at hr; cases hr
    | some p =>
      rw [hp] at hr
      simp only [Option.map_some', Option.some.injEq] at hr
      have hpn : p.state ≠ Handle.pending := by rw [hr]; exact hne
      simp only [Option.map_some', Option.some.injEq]
      split
      · rw [abandon_state_of_ne hpn]; exact hr
      · exact hr

/-- C6, as amended (exactly-once execution).  In every reachable state: no task occurs twice
in the dequeue log, so each task was dequeued at most once and by one worker; no task occurs
twice in the log of executions and every execution was made by the worker that dequeued the
task; a task in the queue is held by no worker and a task is held by at most one worker; a
held task was dequeued by its holder, has not been executed and its handle is still pending;
the fault of invoking a packaged task twice has not occurred.  The handle of a task is in one
of three conditions: written by the execution of the worker that dequeued the task, with the
outcome of its callable; or pending, the task not executed; or, for a task that no worker ever
dequeued, written with `broken_promise` by the destruction of the pool.  So while the pool
exists a handle is written exactly if its task is in the log of executions, and a handle that
has been written is never written again: no action changes it. -/
theorem exactly_once (n : Nat) (s : ThreadPool V E) (h : Reachable n s) :
    (s.deqLog.map Prod.snd).Nodup ∧
    (∀ (i j t : Nat), (i, t) ∈ s.deqLog → (j, t) ∈ s.deqLog → i = j) ∧
    (s.runLog.map Prod.snd).Nodup ∧
    (∀ p ∈ s.runLog, p ∈ s.deqLog) ∧
    (∀ t ∈ s.tasks_, ∀ i : Nat, s.workers_[i]? ≠ some (WorkerPc.running t)) ∧
    (∀ (i j t : Nat), s.workers_[i]? = some (WorkerPc.running t) →
      s.workers_[j]? = some (WorkerPc.running t) → i = j) ∧
    (∀ (i t : Nat), s.workers_[i]? = some (WorkerPc.running t) →
      (i, t) ∈ s.deqLog ∧ t ∉ s.runLog.map Prod.snd ∧ handle s t = some Handle.pending) ∧
    s.fault = none ∧
    (s.dtor ≠ DtorPc.destroyed → ∀ t : Nat,
      (t ∈ s.runLog.map Prod.snd ↔ ∃ r, handle s t = some r ∧ r ≠ Handle.pending)) ∧
    (∀ (t : Nat) (p : Packaged V E), s.heap[t]? = some p →
      (t ∈ s.runLog.map Prod.snd ∧ p.state = outcome (p.fn ())) ∨
      (t ∉ s.runLog.map Prod.snd ∧ p.state = Handle.pending) ∨
      (t ∉ s.runLog.map Prod.snd ∧ t ∉ s.deqLog.map Prod.snd ∧ s.dtor = DtorPc.destroyed ∧
        p.state = Handle.failed Failure.brokenPromise)) ∧
    (∀ (e : Event V E) (s' : ThreadPool V E) (t : Nat) (r : Handle V E), step s e = some s' →
      handle s t = some r → r ≠ Handle.pending → handle s' t = some r) := by
  obtain ⟨hy, hh⟩ := reachable_inv h
  have hdn := hist_deqNodup hh
  refine ⟨hdn, fun i j t hi hj => snd_unique hdn hi hj, hh.runNodup, hh.ran, ?_, ?_, ?_, hh.ok,
    ?_, ?_, fun e s' t r hs hr hne => handle_stable hs hr hne⟩
  · intro t ht i hi
    have hnd : s.dtor ≠ DtorPc.destroyed := by
      intro hd
      rw [(hy.dead hd).2.1] at ht
      cases ht
    have hfifo := hh.fifo hnd
    have hnodup := hh.enqNodup
    rw [← hfifo] at hnodup
    have hmem : t ∈ s.deqLog.map Prod.snd := List.mem_map.2 ⟨(i, t), (hh.held i t hi).1, rfl⟩
    exact List.disjoint_of_nodup_append hnodup hmem ht
  · intro i j t hi hj
    exact snd_unique hdn (hh.held i t hi).1 (hh.held j t hj).1
  · intro i t hi
    have hheld := hh.held i t hi
    refine ⟨hheld.1, hheld.2, ?_⟩
    have hmem : t ∈ s.deqLog.map Prod.snd := List.mem_map.2 ⟨(i, t), hheld.1, rfl⟩
    obtain ⟨p, hp, _⟩ := hh.enqCell t (hh.fifoD.subset hmem)
    have hnd := sync_alive_of_worker hy hi (by intro h'; cases h')
    simp [handle, hp, (hh.cells t p hp).2.1 hheld.2 hnd]
  · intro hnd t
    constructor
    · intro hmem
      obtain ⟨⟨w, t'⟩, hw, rfl⟩ := List.mem_map.1 hmem
      have hmem' : t' ∈ s.deqLog.map Prod.snd := List.mem_map.2 ⟨(w, t'), hh.ran _ hw, rfl⟩
      obtain ⟨p, hp, _⟩ := hh.enqCell t' (hh.fifoD.subset hmem')
      refine ⟨p.state, by simp [handle, hp], ?_⟩
      rw [(hh.cells t' p hp).1 hmem]
      exact outcome_ne_pending _
    · rintro ⟨r, hr, hne⟩
      by_contra hn
      unfold handle at hr
      cases hp : s.heap[t]? with
      | none => rw [hp] at hr; cases hr
      | some p =>
        rw [hp] at hr
        simp only [Option.map_some', Option.some.injEq] at hr
        exact hne (hr ▸ (hh.cells t p hp).2.1 hn hnd)
  · intro t p hp
    have hc := hh.cells t p hp
    by_cases hm : t ∈ s.runLog.map Prod.snd
    · exact Or.inl ⟨hm, hc.1 hm⟩
    · rcases hc.2.2 hm with hst | hst
      · exact Or.inr (Or.inl ⟨hm, hst⟩)
      · have hd : s.dtor = DtorPc.destroyed := by
          by_contra hnd
          have := hc.2.1 hm hnd
          rw [hst] at this
          cases this
        refine Or.inr (Or.inr ⟨hm, ?_, hd, hst⟩)
        intro hdq
        obtain ⟨⟨i, t'⟩, hi, rfl⟩ := List.mem_map.1 hdq
        rcases hh.owner i t' hi with ho | ho
        · have := (hy.dead hd).1 _ (mem_of_get ho)
          cases this
        · exact hm (List.mem_map.2 ⟨(i, t'), ho, rfl⟩)

/-- C6 as stated fails: in the reachable state `abandonFinal` (pool destroyed with task 0 still
queued) the handle of task 0 has been written, yet no worker dequeued or executed task 0. -/
theorem exactly_once_counterexample :
    ¬ (∀ (s : ThreadPool Int Unit) (t : Nat) (r : Handle Int Unit), Reachable 1 s →
        handle s t = some r → r ≠ Handle.pending →
        ∃ i : Nat, (i, t) ∈ s.deqLog ∧ (i, t) ∈ s.runLog) := by
  intro H
  obtain ⟨i, hi, _⟩ := H abandonFinal 0 (Handle.failed Failure.brokenPromise)
    ⟨abandonSchedule ++ abandonRest, rfl⟩ rfl (by intro h'; cases h')
  simp [abandonFinal] at hi

/-! ## The theorems at concrete pools -/

/-- The state `fifoState` is reached by `fifoSchedule`. -/
theorem fifoState_reachable : Reachable 1 fifoState := ⟨fifoSchedule, rfl⟩

/-- Result correctness at the first submission of example/test.cpp: after `serve 0` the
future of task 0 delivers `foo 0`. -/
theorem add_task_result_witness :
    Reachable 4 (init 4 : ThreadPool Int Unit) ∧ (0, 0) ∈ (mainState 1).runLog ∧
    futureGet (mainState 1) 0 = some (Except.ok (foo 0)) :=
  ⟨⟨[], rfl⟩, by decide,
    (add_task_result 4 foo 0 (init 4)
      { (init 4 : ThreadPool Int Unit) with
          heap := [{ fn := bind foo 0, state := Handle.pending, call := AddPc.created }] }
      (mainState 1)
      [Event.add_task_lock 0, Event.add_task_emplace 0, Event.add_task_notify 0 none, Event.lock 0, Event.cond 0,
        Event.check 0, Event.finish 0]
      0 ⟨[], rfl⟩ rfl rfl (by decide)).1⟩

/-- FIFO order in `fifoState`: task 0 dequeued, task 1 queued, enqueue order 0, 1. -/
theorem fifo_dequeue_witness :
    Reachable 1 fifoState ∧
    fifoState.deqLog.map Prod.snd ++ fifoState.tasks_ = fifoState.enqLog ∧
    fifoState.runLog.map Prod.snd <+: fifoState.enqLog :=
  ⟨fifoState_reachable,
    (fifo_dequeue 1 fifoState fifoState_reachable).1 (by decide),
    ((fifo_dequeue 1 fifoState fifoState_reachable).2.2 rfl).2⟩

/-- Failure propagation in `throwState`: the throwing task ends, its future rethrows, the
worker is back at the top of its loop. -/
theorem failure_propagation_witness :
    Reachable 1 throwState ∧ throwState.workers_[0]? = some (WorkerPc.running 0) ∧
    ∃ s', step throwState (Event.finish 0) = some s' ∧
      futureGet s' 0 = some (Except.error (Failure.raised ())) ∧
      s'.workers_[0]? = some WorkerPc.lockWait :=
  ⟨⟨throwSchedule, rfl⟩, rfl,
    (failure_propagation 1 throwState 0 0
      { fn := thrower, state := Handle.pending, call := AddPc.returned } ()
      ⟨throwSchedule, rfl⟩ rfl rfl rfl).imp
      (fun _ h => ⟨h.1, h.2.2.1, h.2.2.2.1⟩)⟩

/-- Abandoned queue after `abandonSchedule`: once the pool is destroyed the future of the
queued task rethrows `broken_promise`. -/
theorem abandoned_task_witness :
    Reachable 1 abandonState ∧ 0 ∈ abandonState.tasks_ ∧
    exec abandonState abandonRest = some abandonFinal ∧
    handle abandonFinal 0 = some (Handle.failed Failure.brokenPromise) ∧
    futureGet abandonFinal 0 = some (Except.error Failure.brokenPromise) :=
  ⟨⟨abandonSchedule, rfl⟩, by decide, rfl,
    (abandoned_task 1 abandonState abandonFinal 0 abandonRest ⟨abandonSchedule, rfl⟩
      (by decide) (by decide) rfl).2.1 rfl⟩

/-- Exactly-once execution in `fifoState`: the queued task 1 is held by no worker. -/
theorem exactly_once_witness :
    Reachable 1 fifoState ∧ (fifoState.deqLog.map Prod.snd).Nodup ∧
    ∀ i : Nat, fifoState.workers_[i]? ≠ some (WorkerPc.running 1) :=
  ⟨fifoState_reachable, (exactly_once 1 fifoState fifoState_reachable).1,
    (exactly_once 1 fifoState fifoState_reachable).2.2.2.2.1 1 (by decide)⟩

/-- Concurrency bound in `fifoState`: one worker, at most one task executing. -/
theorem concurrency_bound_witness :
    Reachable 1 fifoState ∧ (executing fifoState).length ≤ 1 :=
  ⟨fifoState_reachable, concurrency_bound 1 fifoState fifoState_reachable⟩

/-- Lock discipline in `lockedState`: the worker evaluates the condition of line 63 while it
owns the mutex. -/
theorem critical_section_at_locked :
    Reachable 1 lockedState ∧
    step lockedState (Event.cond 0) =
      some { lockedState with workers_ := [WorkerPc.waitCall] } ∧
    lockedState.mutex_ = some (actor lockedState (Event.cond 0 : Event Int Unit)) :=
  ⟨⟨[Event.lock 0], rfl⟩, rfl,
    (critical_section 1 lockedState { lockedState with workers_ := [WorkerPc.waitCall] }
      (Event.cond 0) ⟨[Event.lock 0], rfl⟩ rfl).1 (by decide) (by decide)⟩

/-- No drain in `drainState`: the flag is false and the queue holds task 0; the worker exits
and the queue still holds task 0. -/
theorem no_drain_on_shutdown_witness :
    drainState.running_ = false ∧ drainState.tasks_ = [0] ∧
    ∃ s', step drainState (Event.check 0) = some s' ∧
      s'.workers_[0]? = some WorkerPc.terminated ∧ s'.tasks_ = drainState.tasks_ :=
  ⟨rfl, rfl, (no_drain_on_shutdown drainState 0 rfl rfl rfl).1.imp
    (fun _ h => ⟨h.1, h.2.1, h.2.2.1⟩)⟩

/-- Dequeue safety in `fifoState`: no `front()` on an empty queue has happened. -/
theorem dequeue_safety_witness :
    Reachable 1 fifoState ∧ fifoState.fault ≠ some Fault.frontOnEmpty :=
  ⟨fifoState_reachable, (dequeue_safety 1 fifoState fifoState_reachable).1⟩

end thread_pool
